import Mathlib

/-!
# Verification of the etl-service chunking / embedding / deduplication core

Shallow embedding of the Python services of the `etl-service` repository:
texts are `List Char`, positions are `ℕ`, vectors are `List ℝ`, fallible
operations return `Option`.  Each definition is translated from a named
function of the source tree (file and line references in the doc comments).
While-loops are embedded with an explicit fuel argument (the fuel returned
by the termination theorems is proved sufficient), so that the definitions
stay structurally recursive and evaluate inside the kernel.
-/

/-! ## Python string primitives -/

/-- Python whitespace test used by `str.split()` / `str.strip()`
(ASCII whitespace: space, tab, newline, carriage return, vertical tab,
form feed; the model restricts itself to these). -/
def pyIsSpace (c : Char) : Bool :=
  c = ' ' || c = '\t' || c = '\n' || c = '\r' || c = Char.ofNat 11 || c = Char.ofNat 12

/-- Python `str.strip()`: drop leading and trailing whitespace. -/
def pyStrip (l : List Char) : List Char :=
  ((l.dropWhile pyIsSpace).reverse.dropWhile pyIsSpace).reverse

/-- Worker for `pySplit`; `acc` is the current word, reversed. -/
def pySplitAux : List Char → List Char → List (List Char)
  | acc, [] => if acc = [] then [] else [acc.reverse]
  | acc, c :: cs =>
    if pyIsSpace c then
      if acc = [] then pySplitAux [] cs else acc.reverse :: pySplitAux [] cs
    else
      pySplitAux (c :: acc) cs

/-- Python `str.split()` with no argument: maximal runs of non-whitespace. -/
def pySplit (l : List Char) : List (List Char) :=
  pySplitAux [] l

/-- Worker for the sentence splitter: a two-state scanner for the regex
`(?<=[.!?])\s+`.  `skipping = true` while consuming a whitespace run that
followed a sentence terminator; `acc` is the current token, reversed. -/
def sentSplitAux : Bool → List Char → List Char → List (List Char)
  | _, acc, [] => [acc.reverse]
  | true, acc, c :: cs =>
    if pyIsSpace c then sentSplitAux true acc cs
    else acc.reverse :: sentSplitAux false [c] cs
  | false, acc, c :: cs =>
    if pyIsSpace c ∧ (acc.head? = some '.' ∨ acc.head? = some '!' ∨ acc.head? = some '?') then
      acc.reverse :: sentSplitAux true [] cs
    else sentSplitAux false (c :: acc) cs

/-- Model of `ChunkingService.split_into_sentences` (chunking_service.py:30-34) and
`PDFProcessor.split_into_sentences` (pdf_processor.py:128-140):
`re.split(r'(?<=[.!?])\s+', text)`, then strip each piece and drop empties. -/
def split_into_sentences (l : List Char) : List (List Char) :=
  ((sentSplitAux false [] l).map pyStrip).filter (· ≠ [])

/-- Python slice `text[s:e]` (for `0 ≤ s ≤ e`). -/
def pySlice (l : List Char) (s e : ℕ) : List Char :=
  (l.take e).drop s

/-- Python `str.rfind(c)` for a single character: index of the last
occurrence, `-1` if absent. -/
def pyRfind (c : Char) : List Char → Int
  | [] => -1
  | a :: rest =>
    let r := pyRfind c rest
    if 0 ≤ r then r + 1 else if a = c then 0 else -1

/-- Python `str.find(c + ' ')` for the two-character patterns `'. '`,
`'? '`, `'! '`: index of the first occurrence, `none` if absent. -/
def findPair (c : Char) : List Char → Option ℕ
  | a :: b :: rest =>
    if a = c ∧ b = ' ' then some 0 else (findPair c (b :: rest)).map (· + 1)
  | _ => none

/-! ### Basic lemmas about the primitives -/

theorem pyRfind_neg_one_le (c : Char) (l : List Char) : -1 ≤ pyRfind c l := by
  induction l with
  | nil => simp [pyRfind]
  | cons a rest ih =>
    simp only [pyRfind]
    split
    · omega
    · split <;> omega

theorem pyRfind_lt_length (c : Char) (l : List Char) : pyRfind c l < (l.length : Int) := by
  induction l with
  | nil => simp [pyRfind]
  | cons a rest ih =>
    simp only [pyRfind, List.length_cons]
    split
    · push_cast; omega
    · split <;> (push_cast; omega)

theorem findPair_some_le (c : Char) (l : List Char) (m : ℕ)
    (h : findPair c l = some m) : m + 2 ≤ l.length := by
  induction l generalizing m with
  | nil => simp [findPair] at h
  | cons a rest ih =>
    match rest, h with
    | [], h => simp [findPair] at h
    | b :: rest', h =>
      rw [findPair] at h
      split at h
      · simp at h
        simp only [List.length_cons]
        omega
      · simp only [Option.map_eq_some'] at h
        obtain ⟨m', hm', rfl⟩ := h
        have := ih m' hm'
        simp at this ⊢
        omega

theorem foldl_min_le (ms : List ℕ) (m : ℕ) : ms.foldl min m ≤ m := by
  induction ms generalizing m with
  | nil => simp
  | cons a ms ih => exact le_trans (ih (min m a)) (min_le_left m a)

theorem foldl_min_mem (ms : List ℕ) (m : ℕ) :
    ms.foldl min m = m ∨ ms.foldl min m ∈ ms := by
  induction ms generalizing m with
  | nil => simp
  | cons a ms ih =>
    rcases ih (min m a) with h | h
    · rcases min_choice m a with h' | h'
      · left; rw [List.foldl_cons, h, h']
      · right; rw [List.foldl_cons, h, h']; exact List.mem_cons_self a ms
    · right; exact List.mem_cons_of_mem a h

theorem pySlice_length (l : List Char) (s e : ℕ) (he : e ≤ l.length) :
    (pySlice l s e).length = e - s := by
  simp [pySlice, List.length_drop, List.length_take]
  omega

/-! ## ChunkingService (src/app/services/chunking_service.py) -/

/-- One chunk dictionary produced by `ChunkingService.create_chunks`.
The single-chunk branch (lines 52-60) does not set `start_pos`/`end_pos`,
hence those fields are `Option ℕ`; `total_chunks` is patched in at the end
of the function (lines 131-133), the loop builds chunks with `0` there. -/
structure Chunk where
  text : List Char
  chunk_index : ℕ
  char_count : ℕ
  word_count : ℕ
  sentences : List (List Char)
  start_pos : Option ℕ
  end_pos : Option ℕ
  total_chunks : ℕ
deriving DecidableEq

namespace ChunkingService

/-- Lines 75-79: `break_point`, the largest of the three `rfind` results
over the tentative window (`-1` when no sentence terminator occurs). -/
def breakPoint (chunk_text : List Char) : Int :=
  max (pyRfind '.' chunk_text) (max (pyRfind '?' chunk_text) (pyRfind '!' chunk_text))

/-- Lines 68-84: the actual end of the chunk starting at `start`: the
tentative end `min (start + size) len`, snapped back to just after the last
`.`/`?`/`!` of the window when that terminator sits past half the chunk
size and the window does not already reach the end of the text.  The float
comparison `break_point > size * 0.5` is modelled by the exact integer
comparison `2 * break_point > size` (`size * 0.5` is an exact double for
every realistic size). -/
def actualEnd (text : List Char) (size start : ℕ) : ℕ :=
  if min (start + size) text.length < text.length then
    if 2 * breakPoint (pySlice text start (min (start + size) text.length)) > (size : Int) then
      start + (breakPoint (pySlice text start (min (start + size) text.length))).toNat + 1
    else min (start + size) text.length
  else min (start + size) text.length

/-- Lines 106-117: the first sentence boundary inside the overlap region:
minimum of the `find` results for `'. '`, `'? '`, `'! '` that are not `-1`. -/
def sentenceStart (overlap_text : List Char) : Option ℕ :=
  match ([findPair '.' overlap_text, findPair '?' overlap_text,
    findPair '!' overlap_text]).filterMap id with
  | [] => none
  | m :: ms => some (ms.foldl min m)

/-- Lines 101-120: the candidate start of the next chunk, before the
forward-progress correction: `overlap_start` (clamped at `0`, which is what
`ℕ` subtraction gives), moved just past the first sentence boundary of the
overlap region when one exists. -/
def candidateStart (text : List Char) (overlap actual_end : ℕ) : ℕ :=
  match sentenceStart (pySlice text (actual_end - overlap) actual_end) with
  | some m => (actual_end - overlap) + m + 2
  | none => actual_end - overlap

/-- Lines 98-126: the start of the next chunk: the candidate start, forced
past `previous_end` when it would not advance (lines 122-124).  When
`actual_end` already reaches the end of the text the loop variable becomes
`actual_end` (line 126), which terminates the loop. -/
def nextStart (text : List Char) (overlap actual_end previous_end : ℕ) : ℕ :=
  if actual_end < text.length then
    if candidateStart text overlap actual_end ≤ previous_end then previous_end + 1
    else candidateStart text overlap actual_end
  else actual_end

/-- Lines 86-96: the chunk dictionary appended for the window
`[start, actualEnd)`; `text` is stripped but `char_count`/`word_count` are
computed on the unstripped slice. -/
def mkChunk (text : List Char) (size start chunk_index : ℕ) : Chunk :=
  { text := pyStrip (pySlice text start (actualEnd text size start))
    chunk_index := chunk_index
    char_count := (pySlice text start (actualEnd text size start)).length
    word_count := (pySplit (pySlice text start (actualEnd text size start))).length
    sentences := split_into_sentences (pySlice text start (actualEnd text size start))
    start_pos := some start
    end_pos := some (actualEnd text size start)
    total_chunks := 0 }

/-- The `while start < len(text)` loop of lines 67-129, with explicit fuel
(`none` = fuel exhausted; `chunkLoop_isSome` below shows the fuel passed by
`create_chunks` always suffices). -/
def chunkLoop (text : List Char) (size overlap : ℕ) :
    ℕ → ℕ → ℕ → ℕ → Option (List Chunk)
  | 0, _, _, _ => none
  | fuel + 1, start, chunk_index, previous_end =>
    if start < text.length then
      match chunkLoop text size overlap fuel
          (nextStart text overlap (actualEnd text size start) previous_end)
          (chunk_index + 1) (actualEnd text size start) with
      | none => none
      | some rest => some (mkChunk text size start chunk_index :: rest)
    else some []

/-- Model of `ChunkingService.create_chunks` (lines 36-135).  `size`/`overlap` are
the resolved parameters (explicit argument or instance default).  The final
pass setting `total_chunks` on every chunk (lines 131-133) becomes a `map`. -/
def create_chunks (text : List Char) (size overlap : ℕ) : Option (List Chunk) :=
  if text = [] ∨ text.length < size then
    some [{ text := text
            chunk_index := 0
            total_chunks := 1
            char_count := text.length
            word_count := (pySplit text).length
            sentences := split_into_sentences text
            start_pos := none
            end_pos := none }]
  else
    match chunkLoop text size overlap (2 * text.length + 2) 0 0 0 with
    | none => none
    | some chunks => some (chunks.map fun c => { c with total_chunks := chunks.length })

end ChunkingService

namespace ChunkingService

theorem breakPoint_lt_length (l : List Char) : breakPoint l < (l.length : Int) := by
  have h1 := pyRfind_lt_length '.' l
  have h2 := pyRfind_lt_length '?' l
  have h3 := pyRfind_lt_length '!' l
  simp only [breakPoint, max_lt_iff]
  exact ⟨h1, h2, h3⟩

theorem actualEnd_le (text : List Char) (size start : ℕ) :
    actualEnd text size start ≤ text.length := by
  unfold actualEnd
  split
  · split
    · rename_i hendP hbp
      have hb := breakPoint_lt_length (pySlice text start (min (start + size) text.length))
      rw [pySlice_length text start _ (min_le_right _ _)] at hb
      omega
    · omega
  · omega

theorem lt_actualEnd (text : List Char) (size start : ℕ)
    (hsize : 1 ≤ size) (hstart : start < text.length) :
    start < actualEnd text size start := by
  unfold actualEnd
  split
  · split <;> omega
  · omega

/-- Forward end-progress of a non-final chunk: with `2 * overlap ≤ size`, the
actual end always clears `start + overlap`. -/
theorem actualEnd_progress (text : List Char) (size overlap start : ℕ)
    (hsize : 1 ≤ size) (hov : 2 * overlap ≤ size)
    (hlt : actualEnd text size start < text.length) :
    start + overlap + 1 ≤ actualEnd text size start := by
  unfold actualEnd at *
  split at hlt
  · rename_i hendP
    rw [if_pos hendP]
    split at hlt
    · rename_i hbp
      rw [if_pos hbp]
      -- 2 * break_point > size ≥ 2 * overlap, so toNat break_point ≥ overlap + 1
      omega
    · rename_i hbp
      rw [if_neg hbp]
      -- the tentative end was kept: `min (start+size) len < len` forces it to be `start + size`
      omega
  · omega

theorem sentenceStart_le (ot : List Char) (m : ℕ)
    (h : sentenceStart ot = some m) : m + 2 ≤ ot.length := by
  unfold sentenceStart at h
  split at h
  · exact absurd h (by simp)
  · rename_i m0 ms hcand
    simp only [Option.some_inj] at h
    subst h
    have hmem := foldl_min_mem ms m0
    have hall : ∀ x ∈ m0 :: ms, x + 2 ≤ ot.length := by
      intro x hx
      have hx' : some x ∈ [findPair '.' ot, findPair '?' ot, findPair '!' ot] := by
        rw [← hcand] at hx
        rcases List.mem_filterMap.mp hx with ⟨o, ho, hid⟩
        simp only [id] at hid
        subst hid
        exact ho
      simp at hx'
      rcases hx' with h | h | h
      · exact findPair_some_le _ _ _ h.symm
      · exact findPair_some_le _ _ _ h.symm
      · exact findPair_some_le _ _ _ h.symm
    rcases hmem with h | h
    · rw [h]; exact hall m0 (List.mem_cons_self m0 ms)
    · exact hall _ (List.mem_cons_of_mem m0 h)

theorem candidateStart_le_ae (text : List Char) (overlap ae : ℕ)
    (hae : ae ≤ text.length) : candidateStart text overlap ae ≤ ae := by
  unfold candidateStart
  split
  · rename_i m hm
    have := sentenceStart_le _ _ hm
    rw [pySlice_length text _ _ hae] at this
    omega
  · omega

theorem sub_le_candidateStart (text : List Char) (overlap ae : ℕ) :
    ae - overlap ≤ candidateStart text overlap ae := by
  unfold candidateStart
  split <;> omega

theorem nextStart_gt_prev (text : List Char) (overlap ae prev : ℕ)
    (hlt : ae < text.length) : prev + 1 ≤ nextStart text overlap ae prev := by
  unfold nextStart
  rw [if_pos hlt]
  split <;> omega

theorem nextStart_le_ae (text : List Char) (overlap ae prev : ℕ)
    (hlt : ae < text.length) (hprev : prev + 1 ≤ ae) :
    nextStart text overlap ae prev ≤ ae := by
  have h := candidateStart_le_ae text overlap ae (le_of_lt hlt)
  unfold nextStart
  rw [if_pos hlt]
  split <;> omega

theorem sub_le_nextStart (text : List Char) (overlap ae prev : ℕ)
    (hlt : ae < text.length) : ae - overlap ≤ nextStart text overlap ae prev := by
  have h := sub_le_candidateStart text overlap ae
  unfold nextStart
  rw [if_pos hlt]
  split <;> omega

theorem nextStart_le_len_succ (text : List Char) (overlap ae prev : ℕ)
    (hlt : ae < text.length) (hprev : prev ≤ text.length) :
    nextStart text overlap ae prev ≤ text.length + 1 := by
  have h := candidateStart_le_ae text overlap ae (le_of_lt hlt)
  unfold nextStart
  rw [if_pos hlt]
  split <;> omega

end ChunkingService

namespace ChunkingService

/-- The fuel `2 * len + 2` always suffices: the quantity
`start + previous_end` grows by at least `2` per iteration and is bounded. -/
theorem chunkLoop_isSome (text : List Char) (size overlap : ℕ) (hsize : 1 ≤ size) :
    ∀ fuel start chunk_index prev, start ≤ text.length + 1 → prev ≤ text.length →
    2 * text.length + 2 ≤ fuel + start + prev →
    (chunkLoop text size overlap fuel start chunk_index prev).isSome := by
  intro fuel
  induction fuel with
  | zero => intro start ci prev hs hp hf; omega
  | succ fuel ih =>
    intro start ci prev hs hp hf
    rw [chunkLoop]
    by_cases hlt : start < text.length
    · rw [if_pos hlt]
      have hae_le := actualEnd_le text size start
      have hae_gt := lt_actualEnd text size start hsize hlt
      by_cases haelt : actualEnd text size start < text.length
      · have h1 := nextStart_gt_prev text overlap (actualEnd text size start) prev haelt
        have h2 := nextStart_le_len_succ text overlap (actualEnd text size start) prev haelt hp
        have := ih (nextStart text overlap (actualEnd text size start) prev) (ci + 1)
          (actualEnd text size start) h2 (le_of_lt haelt) (by omega)
        rcases Option.isSome_iff_exists.mp this with ⟨rest, hrest⟩
        rw [hrest]
        simp
      · have hae : actualEnd text size start = text.length := by omega
        have hns : nextStart text overlap (actualEnd text size start) prev =
            actualEnd text size start := by
          unfold nextStart
          rw [if_neg (by omega)]
        have := ih (nextStart text overlap (actualEnd text size start) prev) (ci + 1)
          (actualEnd text size start) (by omega) (by omega) (by omega)
        rcases Option.isSome_iff_exists.mp this with ⟨rest, hrest⟩
        rw [hrest]
        simp
    · rw [if_neg hlt]
      simp

/-- Iteration bound: the `start + previous_end` measure bounds the number of
chunks the loop can produce by `len + 1`. -/
theorem chunkLoop_length (text : List Char) (size overlap : ℕ) (hsize : 1 ≤ size) :
    ∀ fuel start chunk_index prev l,
    chunkLoop text size overlap fuel start chunk_index prev = some l →
    start ≤ text.length + 1 → prev ≤ text.length →
    2 * l.length + start + prev ≤ 2 * text.length + 2 := by
  intro fuel
  induction fuel with
  | zero => intro start ci prev l h; rw [chunkLoop] at h; exact absurd h (by simp)
  | succ fuel ih =>
    intro start ci prev l h hs hp
    rw [chunkLoop] at h
    by_cases hlt : start < text.length
    · rw [if_pos hlt] at h
      have hae_le := actualEnd_le text size start
      have hae_gt := lt_actualEnd text size start hsize hlt
      rcases hrest : chunkLoop text size overlap fuel
          (nextStart text overlap (actualEnd text size start) prev) (ci + 1)
          (actualEnd text size start) with _ | rest
      · rw [hrest] at h; exact absurd h (by simp)
      · rw [hrest] at h
        simp only [Option.some_inj] at h
        subst h
        by_cases haelt : actualEnd text size start < text.length
        · have h1 := nextStart_gt_prev text overlap (actualEnd text size start) prev haelt
          have h2 := nextStart_le_len_succ text overlap (actualEnd text size start) prev haelt hp
          have := ih (nextStart text overlap (actualEnd text size start) prev) (ci + 1)
            (actualEnd text size start) rest hrest h2 (le_of_lt haelt)
          simp only [List.length_cons]
          omega
        · -- the chunk reaching the end of the text is the last one
          have hae : actualEnd text size start = text.length := by omega
          have hns : nextStart text overlap (actualEnd text size start) prev =
              actualEnd text size start := by
            unfold nextStart
            rw [if_neg (by omega)]
          have hrest' : rest = [] := by
            cases fuel with
            | zero => rw [chunkLoop] at hrest; exact absurd hrest (by simp)
            | succ fuel' =>
              rw [chunkLoop, hns, hae, if_neg (by omega)] at hrest
              simpa using hrest.symm
          subst hrest'
          simp only [List.length_cons, List.length_nil]
          omega
    · rw [if_neg hlt] at h
      simp only [Option.some_inj] at h
      subst h
      simp only [List.length_nil]
      omega

/-- Gap-freedom of the loop under `2 * overlap ≤ size`: every position from
`start` to the end of the text is inside `[start_pos, end_pos)` of some
produced chunk. -/
theorem chunkLoop_covers (text : List Char) (size overlap : ℕ)
    (hsize : 1 ≤ size) (hov : 2 * overlap ≤ size) :
    ∀ fuel start chunk_index prev l,
    chunkLoop text size overlap fuel start chunk_index prev = some l →
    start < text.length → prev < text.length → prev ≤ start + overlap →
    ∀ p, start ≤ p → p < text.length →
    ∃ c ∈ l, ∃ s e, c.start_pos = some s ∧ c.end_pos = some e ∧ s ≤ p ∧ p < e := by
  intro fuel
  induction fuel with
  | zero => intro start ci prev l h; rw [chunkLoop] at h; exact absurd h (by simp)
  | succ fuel ih =>
    intro start ci prev l h hlt hprev hpo p hsp hpl
    rw [chunkLoop, if_pos hlt] at h
    rcases hrest : chunkLoop text size overlap fuel
        (nextStart text overlap (actualEnd text size start) prev) (ci + 1)
        (actualEnd text size start) with _ | rest
    · rw [hrest] at h; exact absurd h (by simp)
    · rw [hrest] at h
      simp only [Option.some_inj] at h
      subst h
      by_cases hpe : p < actualEnd text size start
      · exact ⟨mkChunk text size start ci, List.mem_cons_self _ _, start,
          actualEnd text size start, rfl, rfl, hsp, hpe⟩
      · -- p lies at or past the current chunk's end: recurse into the tail
        have haelt : actualEnd text size start < text.length := by omega
        have hprog := actualEnd_progress text size overlap start hsize hov haelt
        have h1 := nextStart_gt_prev text overlap (actualEnd text size start) prev haelt
        have h2 := nextStart_le_ae text overlap (actualEnd text size start) prev haelt (by omega)
        have h3 := sub_le_nextStart text overlap (actualEnd text size start) prev haelt
        obtain ⟨c, hc, s, e, h4, h5, h6, h7⟩ := ih
          (nextStart text overlap (actualEnd text size start) prev) (ci + 1)
          (actualEnd text size start) rest hrest (by omega) haelt (by omega) p (by omega) hpl
        exact ⟨c, List.mem_cons_of_mem _ hc, s, e, h4, h5, h6, h7⟩

end ChunkingService

/-! ### `str.split()` is invariant under `str.strip()` -/

theorem pySplitAux_all_ws (spaces : List Char) (hws : ∀ c ∈ spaces, pyIsSpace c = true) :
    ∀ acc, pySplitAux acc spaces = if acc = [] then [] else [acc.reverse] := by
  induction spaces with
  | nil => intro acc; rfl
  | cons c cs ih =>
    intro acc
    have hc : pyIsSpace c = true := hws c (List.mem_cons_self c cs)
    have ih' := ih (fun d hd => hws d (List.mem_cons_of_mem c hd))
    rw [pySplitAux, if_pos hc]
    by_cases hacc : acc = []
    · rw [if_pos hacc, if_pos hacc, ih' []]
      simp
    · rw [if_neg hacc, if_neg hacc, ih' []]
      simp

theorem pySplitAux_append_ws (spaces : List Char)
    (hws : ∀ c ∈ spaces, pyIsSpace c = true) :
    ∀ l acc, pySplitAux acc (l ++ spaces) = pySplitAux acc l := by
  intro l
  induction l with
  | nil =>
    intro acc
    rw [List.nil_append, pySplitAux_all_ws spaces hws acc]
    rfl
  | cons c cs ih =>
    intro acc
    rw [List.cons_append, pySplitAux, pySplitAux]
    by_cases hc : pyIsSpace c
    · rw [if_pos hc, if_pos hc]
      by_cases hacc : acc = []
      · rw [if_pos hacc, if_pos hacc, ih []]
      · rw [if_neg hacc, if_neg hacc, ih []]
    · rw [if_neg hc, if_neg hc, ih (c :: acc)]

theorem pySplitAux_dropWhile_ws (l : List Char) :
    pySplitAux [] (l.dropWhile pyIsSpace) = pySplitAux [] l := by
  induction l with
  | nil => rfl
  | cons c cs ih =>
    by_cases hc : pyIsSpace c
    · rw [List.dropWhile_cons_of_pos hc, ih, pySplitAux, if_pos hc, if_pos rfl]
    · rw [List.dropWhile_cons_of_neg hc]

/-- Python `text.split()` gives the same words on `text.strip()`. -/
theorem pySplit_pyStrip (l : List Char) : pySplit (pyStrip l) = pySplit l := by
  have hdecomp : l.dropWhile pyIsSpace =
      pyStrip l ++ (((l.dropWhile pyIsSpace).reverse.takeWhile pyIsSpace)).reverse := by
    unfold pyStrip
    rw [← List.reverse_append, List.takeWhile_append_dropWhile, List.reverse_reverse]
  have hws : ∀ c ∈ (((l.dropWhile pyIsSpace).reverse.takeWhile pyIsSpace)).reverse,
      pyIsSpace c = true := by
    intro c hc
    rw [List.mem_reverse] at hc
    exact List.mem_takeWhile_imp hc
  unfold pySplit
  rw [← pySplitAux_dropWhile_ws l, hdecomp, pySplitAux_append_ws _ hws]

namespace ChunkingService

/-- Every chunk the loop emits is `mkChunk` at its own recorded position. -/
theorem chunkLoop_shape (text : List Char) (size overlap : ℕ) :
    ∀ fuel start chunk_index prev l,
    chunkLoop text size overlap fuel start chunk_index prev = some l →
    ∀ c ∈ l, ∃ s i, c = mkChunk text size s i := by
  intro fuel
  induction fuel with
  | zero => intro start ci prev l h; rw [chunkLoop] at h; exact absurd h (by simp)
  | succ fuel ih =>
    intro start ci prev l h c hc
    rw [chunkLoop] at h
    by_cases hlt : start < text.length
    · rw [if_pos hlt] at h
      rcases hrest : chunkLoop text size overlap fuel
          (nextStart text overlap (actualEnd text size start) prev) (ci + 1)
          (actualEnd text size start) with _ | rest
      · rw [hrest] at h; exact absurd h (by simp)
      · rw [hrest] at h
        simp only [Option.some_inj] at h
        subst h
        rcases List.mem_cons.mp hc with hc | hc
        · exact ⟨start, ci, hc⟩
        · exact ih _ _ _ rest hrest c hc
    · rw [if_neg hlt] at h
      simp only [Option.some_inj] at h
      subst h
      exact absurd hc (by simp)

/-- Field-level description of every chunk of `create_chunks`: the
single-chunk branch stores the whole text with no positions; a loop chunk
stores the stripped slice `text[start_pos:end_pos]` while `char_count` and
`word_count` are computed on the unstripped slice. -/
theorem create_chunks_shape (text : List Char) (size overlap : ℕ) (l : List Chunk)
    (h : create_chunks text size overlap = some l) :
    ∀ c ∈ l,
      c.word_count = (pySplit c.text).length ∧
      ((c.start_pos = none ∧ c.end_pos = none ∧ c.text = text ∧
        c.char_count = c.text.length) ∨
       (∃ s, c.start_pos = some s ∧ c.end_pos = some (actualEnd text size s) ∧
        c.text = pyStrip (pySlice text s (actualEnd text size s)) ∧
        c.char_count = (pySlice text s (actualEnd text size s)).length)) := by
  intro c hc
  unfold create_chunks at h
  split at h
  · simp only [Option.some_inj] at h
    subst h
    simp only [List.mem_singleton] at hc
    subst hc
    refine ⟨rfl, Or.inl ⟨rfl, rfl, rfl, rfl⟩⟩
  · rcases hloop : chunkLoop text size overlap (2 * text.length + 2) 0 0 0 with _ | chunks
    · rw [hloop] at h; exact absurd h (by simp)
    · rw [hloop] at h
      simp only [Option.some_inj] at h
      subst h
      rcases List.mem_map.mp hc with ⟨c0, hc0, rfl⟩
      obtain ⟨s, i, rfl⟩ := chunkLoop_shape text size overlap _ _ _ _ chunks hloop c0 hc0
      refine ⟨?_, Or.inr ⟨s, rfl, rfl, rfl, rfl⟩⟩
      show (pySplit (pySlice text s (actualEnd text size s))).length =
        (pySplit (pyStrip (pySlice text s (actualEnd text size s)))).length
      rw [pySplit_pyStrip]

end ChunkingService

/-! ## Claims C1, C2, C6 -/

/-- C1 (amended): for texts at least one chunk-size long and
`2 * chunk_overlap ≤ chunk_size`, `ChunkingService.create_chunks` succeeds
and the returned chunks cover every character position of the input:
each `p < len(text)` lies in `[start_pos, end_pos)` of some chunk. -/
theorem claim_C1_amended (text : List Char) (size overlap : ℕ)
    (hsize : 1 ≤ size) (hov : 2 * overlap ≤ size) (hlen : size ≤ text.length) :
    ∃ l, ChunkingService.create_chunks text size overlap = some l ∧
      ∀ p < text.length, ∃ c ∈ l, ∃ s e, c.start_pos = some s ∧ c.end_pos = some e ∧
        s ≤ p ∧ p < e := by
  have hne : ¬(text = [] ∨ text.length < size) := by
    rintro (h | h)
    · rw [h] at hlen; simp at hlen; omega
    · omega
  have hsome := ChunkingService.chunkLoop_isSome text size overlap hsize
    (2 * text.length + 2) 0 0 0 (by omega) (by omega) (by omega)
  rcases Option.isSome_iff_exists.mp hsome with ⟨chunks, hchunks⟩
  refine ⟨chunks.map fun c => { c with total_chunks := chunks.length }, ?_, ?_⟩
  · unfold ChunkingService.create_chunks
    rw [if_neg hne, hchunks]
  · intro p hp
    obtain ⟨c, hc, s, e, hs, he, hsp, hpe⟩ :=
      ChunkingService.chunkLoop_covers text size overlap hsize hov
        (2 * text.length + 2) 0 0 0 chunks hchunks (by omega) (by omega) (by omega) p
        (Nat.zero_le p) hp
    exact ⟨{ c with total_chunks := chunks.length },
      List.mem_map_of_mem _ hc, s, e, hs, he, hsp, hpe⟩

/-- C1 counterexample: with `chunk_size = 5`, `chunk_overlap = 4` (a valid
pair under the claim's precondition `overlap < size`) on the text
`" aa .aa"`, position `5` is covered by no chunk: the loop emits windows
`[0,5)`, `[1,5)` and — after the forward-progress bump — `[6,7)`. -/
theorem claim_C1_counterexample :
    ¬ ∃ l, ChunkingService.create_chunks (" aa .aa").toList 5 4 = some l ∧
      ∀ p < (" aa .aa").toList.length, ∃ c ∈ l, ∃ s e, c.start_pos = some s ∧
        c.end_pos = some e ∧ s ≤ p ∧ p < e := by
  rintro ⟨l, hl, hcov⟩
  have hL : ChunkingService.create_chunks (" aa .aa").toList 5 4 =
      some ((ChunkingService.create_chunks (" aa .aa").toList 5 4).getD []) := by decide
  rw [hL] at hl
  simp only [Option.some_inj] at hl
  subst hl
  obtain ⟨c, hc, s, e, hs, he, hsp, hpe⟩ := hcov 5 (by decide)
  revert hc
  have : (ChunkingService.create_chunks (" aa .aa").toList 5 4).getD [] =
      [{ text := ("aa .").toList, chunk_index := 0, char_count := 5, word_count := 2,
         sentences := [("aa .").toList], start_pos := some 0, end_pos := some 5,
         total_chunks := 3 },
       { text := ("aa .").toList, chunk_index := 1, char_count := 4, word_count := 2,
         sentences := [("aa .").toList], start_pos := some 1, end_pos := some 5,
         total_chunks := 3 },
       { text := ("a").toList, chunk_index := 2, char_count := 1, word_count := 1,
         sentences := [("a").toList], start_pos := some 6, end_pos := some 7,
         total_chunks := 3 }] := by decide
  rw [this]
  clear hL hcov this
  intro hc
  fin_cases hc <;>
    (simp only [Option.some_inj] at hs he; omega)

/-- C1 witness for the amended coverage theorem, at `"a.b"`, size 2, overlap 1. -/
theorem claim_C1_witness :
    ∃ l, ChunkingService.create_chunks ("a.b").toList 2 1 = some l ∧
      ∀ p < ("a.b").toList.length, ∃ c ∈ l, ∃ s e, c.start_pos = some s ∧
        c.end_pos = some e ∧ s ≤ p ∧ p < e :=
  claim_C1_amended ("a.b").toList 2 1 (by decide) (by decide) (by decide)

/-- C2 (amended): the chunk-producing loop always terminates (the fuel
`2 * len + 2` provably suffices, so `create_chunks` returns `some`), and it
returns at most `len(text) + 1` chunks.  The claimed
`ceil(len / (size - overlap)) + 1` iteration bound is refuted by
`claim_C2_counterexample`: sentence-boundary snapping can shorten the
per-iteration advance below `size - overlap`. -/
theorem claim_C2_amended (text : List Char) (size overlap : ℕ)
    (hsize : 1 ≤ size) (hov : overlap < size) :
    ∃ l, ChunkingService.create_chunks text size overlap = some l ∧
      l.length ≤ text.length + 1 := by
  unfold ChunkingService.create_chunks
  split
  · exact ⟨_, rfl, by simp⟩
  · have hsome := ChunkingService.chunkLoop_isSome text size overlap hsize
      (2 * text.length + 2) 0 0 0 (by omega) (by omega) (by omega)
    rcases Option.isSome_iff_exists.mp hsome with ⟨chunks, hchunks⟩
    rw [hchunks]
    refine ⟨_, rfl, ?_⟩
    have := ChunkingService.chunkLoop_length text size overlap hsize
      (2 * text.length + 2) 0 0 0 chunks hchunks (by omega) (by omega)
    simp only [List.length_map]
    omega

/-- C2 counterexample: on the 25-character text `" a.!.aa!  ? a . a.. ?a.!."`
with `chunk_size = 7`, `chunk_overlap = 2`, the loop runs 7 iterations
(7 chunks), exceeding `ceil(25 / 5) + 1 = 6` (in `ℕ`,
`ceil (n / d) = (n + d - 1) / d`). -/
theorem claim_C2_counterexample :
    ∃ l, ChunkingService.create_chunks (" a.!.aa!  ? a . a.. ?a.!.").toList 7 2 = some l ∧
      ¬ (l.length ≤
        ((" a.!.aa!  ? a . a.. ?a.!.").toList.length + (7 - 2) - 1) / (7 - 2) + 1) :=
  ⟨(ChunkingService.create_chunks (" a.!.aa!  ? a . a.. ?a.!.").toList 7 2).getD [],
    by decide, by decide⟩

/-- C2 witness for the amended termination/bound theorem, at `"ab"`, size 1,
overlap 0. -/
theorem claim_C2_witness :
    ∃ l, ChunkingService.create_chunks ("ab").toList 1 0 = some l ∧
      l.length ≤ ("ab").toList.length + 1 :=
  claim_C2_amended ("ab").toList 1 0 (by decide) (by decide)

/-- C6 (confirmed): for every text shorter than `chunk_size` — the empty
string included — `create_chunks` returns exactly one chunk holding the
whole text, with `chunk_index = 0` and `total_chunks = 1` (and it never
fails: the result is `some`). -/
theorem claim_C6 (text : List Char) (size overlap : ℕ) (hlen : text.length < size) :
    ChunkingService.create_chunks text size overlap =
      some [{ text := text
              chunk_index := 0
              total_chunks := 1
              char_count := text.length
              word_count := (pySplit text).length
              sentences := split_into_sentences text
              start_pos := none
              end_pos := none }] := by
  unfold ChunkingService.create_chunks
  rw [if_pos (Or.inr hlen)]

/-- C6 witness at `"ab"` with `chunk_size = 3`. -/
theorem claim_C6_witness :
    ChunkingService.create_chunks ("ab").toList 3 1 =
      some [{ text := ("ab").toList
              chunk_index := 0
              total_chunks := 1
              char_count := ("ab").toList.length
              word_count := (pySplit ("ab").toList).length
              sentences := split_into_sentences ("ab").toList
              start_pos := none
              end_pos := none }] :=
  claim_C6 ("ab").toList 3 1 (by decide)

/-! ## PDFProcessor (src/app/services/pdf_processor.py) -/

/-- One chunk dictionary of `PDFProcessor.create_chunks` (lines 164-199);
`chunk_index`/`total_chunks` are filled by the `enumerate` pass at the end. -/
structure PDFChunk where
  text : List Char
  sentences : List (List Char)
  char_count : ℕ
  word_count : ℕ
  chunk_index : ℕ
  total_chunks : ℕ
deriving DecidableEq

namespace PDFProcessor

/-- Model of `re.sub(r'\s+', ' ', text)` (line 115): each maximal whitespace run
becomes a single space; the flag records whether the previous character was
whitespace. -/
def wsCollapseAux : Bool → List Char → List Char
  | _, [] => []
  | prevWs, c :: cs =>
    if pyIsSpace c then
      if prevWs then wsCollapseAux true cs else ' ' :: wsCollapseAux true cs
    else c :: wsCollapseAux false cs

/-- Line 118: characters kept by
`re.sub(r'[^\w\s\.\,\!\?\;\:\-\(\)\[\]\{\}\"\'\/\\]', '', text)`
(`\w` modelled as ASCII alphanumeric or underscore). -/
def pdfKeepChar (c : Char) : Bool :=
  c.isAlphanum || c = '_' || pyIsSpace c ||
  c ∈ ['.', ',', '!', '?', ';', ':', '-', '(', ')', '[', ']',
       Char.ofNat 123, Char.ofNat 125, Char.ofNat 34, Char.ofNat 39,
       '/', Char.ofNat 92]

/-- Model of `re.sub(r'\n+', '\n', text)` (line 121). -/
def nlCollapseAux : Bool → List Char → List Char
  | _, [] => []
  | prevNl, c :: cs =>
    if c = '\n' then
      if prevNl then nlCollapseAux true cs else '\n' :: nlCollapseAux true cs
    else c :: nlCollapseAux false cs

/-- Model of `PDFProcessor.clean_text` (lines 104-126). -/
def clean_text (l : List Char) : List Char :=
  pyStrip (nlCollapseAux false ((wsCollapseAux false l).filter pdfKeepChar))

/-- Python `current_chunk[-n:]` — note `[-0:]` is the whole string. -/
def pySliceLast (l : List Char) (n : ℕ) : List Char :=
  if n = 0 then l else l.drop (l.length - n)

/-- The chunk dictionary appended at lines 168-173 and 189-194: stripped
`text`, raw `char_count`/`word_count`. -/
def mkPdfChunk (cur : List Char) (sents : List (List Char)) : PDFChunk :=
  { text := pyStrip cur
    sentences := sents
    char_count := cur.length
    word_count := (pySplit cur).length
    chunk_index := 0
    total_chunks := 0 }

/-- The sentence-accumulation loop of lines 164-194: add sentences to the
current chunk until the next one would exceed `chunk_size`, then emit the
chunk and continue from its last `chunk_overlap` characters
(`current_chunk[-overlap:] if len(current_chunk) > overlap else
current_chunk`) plus the sentence; flush the final chunk. -/
def pdfLoop (chunk_size chunk_overlap : ℕ) :
    List (List Char) → List Char → List (List Char) → List PDFChunk
  | [], cur, sents => if cur = [] then [] else [mkPdfChunk cur sents]
  | s :: rest, cur, sents =>
    if cur.length + s.length + 1 > chunk_size ∧ cur ≠ [] then
      mkPdfChunk cur sents ::
        pdfLoop chunk_size chunk_overlap rest
          ((if cur.length > chunk_overlap then pySliceLast cur chunk_overlap else cur)
            ++ ' ' :: s)
          [s]
    else
      pdfLoop chunk_size chunk_overlap rest
        (if cur = [] then s else cur ++ ' ' :: s)
        (sents ++ [s])

/-- The `enumerate` pass of lines 196-199 setting `chunk_index` and
`total_chunks`. -/
def setIdx (n : ℕ) : ℕ → List PDFChunk → List PDFChunk
  | _, [] => []
  | i, c :: cs => { c with chunk_index := i, total_chunks := n } :: setIdx n (i + 1) cs

/-- Model of `PDFProcessor.create_chunks` (lines 142-201): clean the text, return
no chunks when it is empty, otherwise run the sentence-accumulation loop
over `split_into_sentences` and number the chunks. -/
def create_chunks (chunk_size chunk_overlap : ℕ) (text : List Char) : List PDFChunk :=
  if clean_text text = [] then []
  else
    setIdx (pdfLoop chunk_size chunk_overlap (split_into_sentences (clean_text text))
        [] []).length 0
      (pdfLoop chunk_size chunk_overlap (split_into_sentences (clean_text text)) [] [])

/-- Every chunk the PDF loop emits is `mkPdfChunk` of some accumulated raw
string. -/
theorem pdfLoop_shape (chunk_size chunk_overlap : ℕ) :
    ∀ sents cur csents c, c ∈ pdfLoop chunk_size chunk_overlap sents cur csents →
    ∃ raw s2, c = mkPdfChunk raw s2 := by
  intro sents
  induction sents with
  | nil =>
    intro cur csents c hc
    rw [pdfLoop] at hc
    split at hc
    · exact absurd hc (by simp)
    · simp only [List.mem_singleton] at hc
      exact ⟨cur, csents, hc⟩
  | cons s rest ih =>
    intro cur csents c hc
    rw [pdfLoop] at hc
    split at hc
    · rcases List.mem_cons.mp hc with hc | hc
      · exact ⟨cur, csents, hc⟩
      · exact ih _ _ _ hc
    · exact ih _ _ _ hc

theorem setIdx_mem (n : ℕ) :
    ∀ l i c, c ∈ setIdx n i l →
    ∃ c0 ∈ l, ∃ j, c = { c0 with chunk_index := j, total_chunks := n } := by
  intro l
  induction l with
  | nil => intro i c hc; rw [setIdx] at hc; exact absurd hc (by simp)
  | cons c0 cs ih =>
    intro i c hc
    rw [setIdx] at hc
    rcases List.mem_cons.mp hc with hc | hc
    · exact ⟨c0, List.mem_cons_self _ _, i, hc⟩
    · obtain ⟨c1, hc1, j, hj⟩ := ih (i + 1) c hc
      exact ⟨c1, List.mem_cons_of_mem _ hc1, j, hj⟩

/-- Field-level description of every chunk of `PDFProcessor.create_chunks`:
`text` is the stripped accumulated string `raw`, while `char_count` and
`word_count` are computed on `raw` itself. -/
theorem pdf_create_chunks_shape (chunk_size chunk_overlap : ℕ) (text : List Char) :
    ∀ c ∈ create_chunks chunk_size chunk_overlap text,
      c.word_count = (pySplit c.text).length ∧
      ∃ raw, c.text = pyStrip raw ∧ c.char_count = raw.length := by
  intro c hc
  unfold create_chunks at hc
  split at hc
  · exact absurd hc (by simp)
  · obtain ⟨c0, hc0, j, rfl⟩ := setIdx_mem _ _ _ _ hc
    obtain ⟨raw, s2, rfl⟩ := pdfLoop_shape chunk_size chunk_overlap _ _ _ c0 hc0
    refine ⟨?_, raw, rfl, rfl⟩
    show (pySplit raw).length = (pySplit (pyStrip raw)).length
    rw [pySplit_pyStrip]

end PDFProcessor

/-! ## Claim C3 -/

/-- C3 (amended): in both chunkers, `word_count` does equal the number of
whitespace-separated words of the stored `text` field, but `char_count` is
the length of the chunk's *pre-strip* text (the raw window
`text[start_pos:end_pos]` for `ChunkingService`, the accumulated string for
`PDFProcessor`), of which the stored `text` is the whitespace-stripped
version; the two lengths differ when that raw text has leading or trailing
whitespace (`claim_C3_counterexample`).  In the single-chunk branch of
`ChunkingService` the text is stored unstripped and the counts agree. -/
theorem claim_C3_amended :
    (∀ text size overlap l, ChunkingService.create_chunks text size overlap = some l →
      ∀ c ∈ l,
        c.word_count = (pySplit c.text).length ∧
        ((c.start_pos = none ∧ c.end_pos = none ∧ c.text = text ∧
          c.char_count = c.text.length) ∨
         (∃ s, c.start_pos = some s ∧
          c.end_pos = some (ChunkingService.actualEnd text size s) ∧
          c.text = pyStrip (pySlice text s (ChunkingService.actualEnd text size s)) ∧
          c.char_count = (pySlice text s (ChunkingService.actualEnd text size s)).length))) ∧
    (∀ chunk_size chunk_overlap text c,
      c ∈ PDFProcessor.create_chunks chunk_size chunk_overlap text →
        c.word_count = (pySplit c.text).length ∧
        ∃ raw, c.text = pyStrip raw ∧ c.char_count = raw.length) :=
  ⟨fun text size overlap l h => ChunkingService.create_chunks_shape text size overlap l h,
   fun chunk_size chunk_overlap text c hc =>
     PDFProcessor.pdf_create_chunks_shape chunk_size chunk_overlap text c hc⟩

/-- The chunk `ChunkingService.create_chunks " " 1 0` returns (used by the
C3 counterexample and witness). -/
def chunkExA : Chunk :=
  { text := [], chunk_index := 0, char_count := 1, word_count := 0,
    sentences := [], start_pos := some 0, end_pos := some 1, total_chunks := 1 }

/-- The chunk `PDFProcessor.create_chunks 5 2 "ab"` returns (used by the
C3 witness). -/
def pdfChunkExA : PDFChunk :=
  { text := ("ab").toList, sentences := [("ab").toList], char_count := 2,
    word_count := 1, chunk_index := 0, total_chunks := 1 }

/-- C3 counterexample: on the one-character text `" "` with
`chunk_size = 1`, `chunk_overlap = 0`, `ChunkingService.create_chunks`
emits a chunk whose stored `text` is `""` (stripped) but whose
`char_count` is `1` (the unstripped window length). -/
theorem claim_C3_counterexample :
    ∃ l c, ChunkingService.create_chunks (" ").toList 1 0 = some l ∧ c ∈ l ∧
      ¬ c.char_count = c.text.length :=
  ⟨[chunkExA], chunkExA, by decide, by decide, by decide⟩

/-- C3 witness: the amended description applied to the chunking service at
`(" ", 1, 0)` and to the PDF processor at `("ab", 5, 2)`. -/
theorem claim_C3_witness :
    (chunkExA.word_count = (pySplit chunkExA.text).length ∧
     ((chunkExA.start_pos = none ∧ chunkExA.end_pos = none ∧
       chunkExA.text = (" ").toList ∧ chunkExA.char_count = chunkExA.text.length) ∨
      (∃ s, chunkExA.start_pos = some s ∧
       chunkExA.end_pos = some (ChunkingService.actualEnd (" ").toList 1 s) ∧
       chunkExA.text =
         pyStrip (pySlice (" ").toList s (ChunkingService.actualEnd (" ").toList 1 s)) ∧
       chunkExA.char_count =
         (pySlice (" ").toList s (ChunkingService.actualEnd (" ").toList 1 s)).length))) ∧
    (pdfChunkExA.word_count = (pySplit pdfChunkExA.text).length ∧
     ∃ raw, pdfChunkExA.text = pyStrip raw ∧ pdfChunkExA.char_count = raw.length) :=
  ⟨claim_C3_amended.1 (" ").toList 1 0 [chunkExA] (by decide) chunkExA (by decide),
   claim_C3_amended.2 5 2 ("ab").toList pdfChunkExA (by decide)⟩

/-! ## Cosine similarity (duplicate_detection.py:23-35, embeddings.py:211-235)

Vectors are `List ℝ` (the float arithmetic of `numpy` is modelled by exact
real arithmetic); `np.dot` truncates nothing here because the claims are
about equal-length vectors. -/

/-- Model of `np.dot(v1, v2)` on two 1-d arrays. -/
def dotList (v1 v2 : List ℝ) : ℝ := (List.zipWith (· * ·) v1 v2).sum

/-- Sum of squares of a vector. -/
def normSq (v : List ℝ) : ℝ := (v.map fun x => x * x).sum

/-- Model of `np.linalg.norm(v)` — the Euclidean norm. -/
noncomputable def norm2 (v : List ℝ) : ℝ := Real.sqrt (normSq v)

namespace DuplicateDetection

/-- Model of `DuplicateDetectionService.cosine_similarity`
(duplicate_detection.py:23-35): raw cosine, `0` when either norm is zero. -/
noncomputable def cosine_similarity (vec1 vec2 : List ℝ) : ℝ :=
  if norm2 vec1 = 0 ∨ norm2 vec2 = 0 then 0
  else dotList vec1 vec2 / (norm2 vec1 * norm2 vec2)

end DuplicateDetection

namespace VectorSearch

/-- Model of `VectorSearchService.cosine_similarity` (embeddings.py:211-235):
`0` when either norm is zero, otherwise the raw cosine remapped by
`(x + 1) / 2` and clamped into `[0, 1]`
(`max(0.0, min(1.0, (similarity + 1) / 2))`). -/
noncomputable def cosine_similarity (vec1 vec2 : List ℝ) : ℝ :=
  if norm2 vec1 = 0 ∨ norm2 vec2 = 0 then 0
  else max 0 (min 1 ((dotList vec1 vec2 / (norm2 vec1 * norm2 vec2) + 1) / 2))

end VectorSearch

theorem normSq_nonneg (v : List ℝ) : 0 ≤ normSq v := by
  apply List.sum_nonneg
  intro x hx
  rcases List.mem_map.mp hx with ⟨y, _, rfl⟩
  exact mul_self_nonneg y

theorem norm2_nonneg (v : List ℝ) : 0 ≤ norm2 v := Real.sqrt_nonneg _

theorem normSq_eq_sum_range (v : List ℝ) :
    normSq v = ∑ i ∈ Finset.range v.length, (v.getD i 0) ^ 2 := by
  induction v with
  | nil => simp [normSq]
  | cons a t ih =>
    rw [normSq, List.map_cons, List.sum_cons, List.length_cons, Finset.sum_range_succ']
    simp only [List.getD_cons_succ, List.getD_cons_zero]
    rw [← normSq, ih]
    ring

theorem dotList_eq_sum_range (v1 v2 : List ℝ) (h : v1.length = v2.length) :
    dotList v1 v2 = ∑ i ∈ Finset.range v1.length, v1.getD i 0 * v2.getD i 0 := by
  induction v1 generalizing v2 with
  | nil => simp [dotList]
  | cons a t1 ih =>
    cases v2 with
    | nil => simp at h
    | cons b t2 =>
      simp only [List.length_cons, Nat.succ_inj] at h
      rw [dotList, List.zipWith_cons_cons, List.sum_cons, List.length_cons,
        Finset.sum_range_succ']
      simp only [List.getD_cons_succ, List.getD_cons_zero]
      rw [← dotList, ih t2 h]
      ring

/-- Cauchy-Schwarz for the list dot product. -/
theorem dotList_sq_le (v1 v2 : List ℝ) (h : v1.length = v2.length) :
    (dotList v1 v2) ^ 2 ≤ normSq v1 * normSq v2 := by
  rw [dotList_eq_sum_range v1 v2 h, normSq_eq_sum_range, normSq_eq_sum_range, ← h]
  exact Finset.sum_mul_sq_le_sq_mul_sq _ _ _

theorem abs_dotList_le (v1 v2 : List ℝ) (h : v1.length = v2.length) :
    |dotList v1 v2| ≤ norm2 v1 * norm2 v2 := by
  have h1 := dotList_sq_le v1 v2 h
  calc |dotList v1 v2| = Real.sqrt ((dotList v1 v2) ^ 2) := (Real.sqrt_sq_eq_abs _).symm
    _ ≤ Real.sqrt (normSq v1 * normSq v2) := Real.sqrt_le_sqrt h1
    _ = norm2 v1 * norm2 v2 := Real.sqrt_mul (normSq_nonneg v1) _

/-! ## Claim C4 -/

/-- C4 (amended): for equal-length vectors,
`DuplicateDetectionService.cosine_similarity` lies in `[-1, 1]` (not
`[0, 1]`: `claim_C4_counterexample`), equals `dot / (‖a‖ * ‖b‖)` when both
norms are nonzero and is exactly `0` when either norm is zero;
`VectorSearchService.cosine_similarity` lies in `[0, 1]`, being the raw
cosine remapped by `(x + 1) / 2` and clamped, and is also exactly `0` when
either norm is zero. -/
theorem claim_C4_amended (v1 v2 : List ℝ) (h : v1.length = v2.length) :
    (-1 ≤ DuplicateDetection.cosine_similarity v1 v2 ∧
      DuplicateDetection.cosine_similarity v1 v2 ≤ 1) ∧
    ((norm2 v1 = 0 ∨ norm2 v2 = 0) → DuplicateDetection.cosine_similarity v1 v2 = 0) ∧
    (¬(norm2 v1 = 0 ∨ norm2 v2 = 0) →
      DuplicateDetection.cosine_similarity v1 v2 =
        dotList v1 v2 / (norm2 v1 * norm2 v2)) ∧
    (0 ≤ VectorSearch.cosine_similarity v1 v2 ∧
      VectorSearch.cosine_similarity v1 v2 ≤ 1) ∧
    ((norm2 v1 = 0 ∨ norm2 v2 = 0) → VectorSearch.cosine_similarity v1 v2 = 0) := by
  refine ⟨?_, ?_, ?_, ?_, ?_⟩
  · unfold DuplicateDetection.cosine_similarity
    split
    · norm_num
    · rename_i hz
      push_neg at hz
      have h1 : 0 < norm2 v1 := lt_of_le_of_ne (norm2_nonneg v1) (Ne.symm hz.1)
      have h2 : 0 < norm2 v2 := lt_of_le_of_ne (norm2_nonneg v2) (Ne.symm hz.2)
      have hprod : 0 < norm2 v1 * norm2 v2 := mul_pos h1 h2
      have habs := abs_dotList_le v1 v2 h
      constructor
      · rw [le_div_iff₀ hprod]
        have := neg_abs_le (dotList v1 v2)
        nlinarith [abs_nonneg (dotList v1 v2)]
      · rw [div_le_one hprod]
        exact le_trans (le_abs_self _) habs
  · intro hz
    unfold DuplicateDetection.cosine_similarity
    rw [if_pos hz]
  · intro hz
    unfold DuplicateDetection.cosine_similarity
    rw [if_neg hz]
  · unfold VectorSearch.cosine_similarity
    split
    · norm_num
    · constructor
      · exact le_max_left 0 _
      · exact max_le (by norm_num) (min_le_left 1 _)
  · intro hz
    unfold VectorSearch.cosine_similarity
    rw [if_pos hz]

/-- C4 counterexample: the duplicate-detection cosine of `[1]` and `[-1]`
is `-1`, outside the claimed interval `[0, 1]` (no clamping is applied at
this call site). -/
theorem claim_C4_counterexample :
    DuplicateDetection.cosine_similarity [(1 : ℝ)] [(-1 : ℝ)] = -1 ∧
    ¬ (0 ≤ DuplicateDetection.cosine_similarity [(1 : ℝ)] [(-1 : ℝ)]) := by
  have hn1 : norm2 [(1 : ℝ)] = 1 := by
    unfold norm2 normSq
    simp
  have hn2 : norm2 [(-1 : ℝ)] = 1 := by
    unfold norm2 normSq
    simp
  have hd : dotList [(1 : ℝ)] [(-1 : ℝ)] = -1 := by
    unfold dotList
    simp
  have hc : DuplicateDetection.cosine_similarity [(1 : ℝ)] [(-1 : ℝ)] = -1 := by
    unfold DuplicateDetection.cosine_similarity
    rw [hn1, hn2, hd, if_neg (by norm_num)]
    norm_num
  rw [hc]
  norm_num

/-- C4 witness for the amended theorem, at `v1 = [1]`, `v2 = [-1]`. -/
theorem claim_C4_witness :
    (-1 ≤ DuplicateDetection.cosine_similarity [(1 : ℝ)] [(-1 : ℝ)] ∧
      DuplicateDetection.cosine_similarity [(1 : ℝ)] [(-1 : ℝ)] ≤ 1) ∧
    ((norm2 [(1 : ℝ)] = 0 ∨ norm2 [(-1 : ℝ)] = 0) →
      DuplicateDetection.cosine_similarity [(1 : ℝ)] [(-1 : ℝ)] = 0) ∧
    (¬(norm2 [(1 : ℝ)] = 0 ∨ norm2 [(-1 : ℝ)] = 0) →
      DuplicateDetection.cosine_similarity [(1 : ℝ)] [(-1 : ℝ)] =
        dotList [(1 : ℝ)] [(-1 : ℝ)] / (norm2 [(1 : ℝ)] * norm2 [(-1 : ℝ)])) ∧
    (0 ≤ VectorSearch.cosine_similarity [(1 : ℝ)] [(-1 : ℝ)] ∧
      VectorSearch.cosine_similarity [(1 : ℝ)] [(-1 : ℝ)] ≤ 1) ∧
    ((norm2 [(1 : ℝ)] = 0 ∨ norm2 [(-1 : ℝ)] = 0) →
      VectorSearch.cosine_similarity [(1 : ℝ)] [(-1 : ℝ)] = 0) :=
  claim_C4_amended [(1 : ℝ)] [(-1 : ℝ)] rfl

/-! ## DuplicateDetectionService.find_similar_chunk (duplicate_detection.py:37-109)

The embedding provider (`embedding_service.generate_embedding`) is a
parameter `provider : List Char → Option (List ℝ)`; Python's
`if not embedding:` treats both `None` and the empty list as failure, which
the `some (x :: xs)` patterns mirror.  The MongoDB cursor
`find(query).sort("created_at", -1).limit(100)` is modelled as a stable
descending sort on `created_at` followed by `take 100`. -/

/-- A stored chunk document as read by the candidate loop (lines 74-81). -/
structure CandidateDoc where
  id : ℕ
  text : List Char
  pk : List Char
  source_type : List Char
  created_at : ℤ
deriving DecidableEq

/-- A similarity entry as built at lines 93-100. -/
structure DupMatch where
  chunk_id : ℕ
  similarity : ℝ
  text_preview : List Char
  pk : List Char
  source_type : List Char
  created_at : ℤ

namespace DuplicateDetection

/-- Lines 62-65: the `source_type` filter is added to the query only when
the argument is truthy (not `None`, not the empty string). -/
def queryFilter (source_type : Option (List Char)) (docs : List CandidateDoc) :
    List CandidateDoc :=
  match source_type with
  | some st => if st ≠ [] then docs.filter (fun d => d.source_type = st) else docs
  | none => docs

/-- Descending `created_at` order of the candidate cursor (line 72). -/
def createdDesc (a b : CandidateDoc) : Prop := b.created_at ≤ a.created_at

instance : DecidableRel createdDesc := fun a b => Int.decLe b.created_at a.created_at

/-- Lines 71-81: the fetched candidates — the 100 most recent matching
documents. -/
def candidateWindow (source_type : Option (List Char)) (docs : List CandidateDoc) :
    List CandidateDoc :=
  (List.insertionSort createdDesc (queryFilter source_type docs)).take 100

/-- The dictionary appended at lines 93-100:
`text_preview = candidate["text"][:100] + "..."`. -/
def mkMatch (cand : CandidateDoc) (similarity : ℝ) : DupMatch :=
  { chunk_id := cand.id
    similarity := similarity
    text_preview := cand.text.take 100 ++ ['.', '.', '.']
    pk := cand.pk
    source_type := cand.source_type
    created_at := cand.created_at }

/-- Lines 84-100: per-candidate embedding, silently skipping candidates
whose embedding is falsy, keeping those at or above the threshold. -/
noncomputable def similaritiesOf (provider : List Char → Option (List ℝ)) (θ : ℝ)
    (new_embedding : List ℝ) (cands : List CandidateDoc) : List DupMatch :=
  cands.filterMap fun cand =>
    match provider cand.text with
    | some (x :: xs) =>
      if θ ≤ cosine_similarity new_embedding (x :: xs) then
        some (mkMatch cand (cosine_similarity new_embedding (x :: xs)))
      else none
    | _ => none

/-- Descending similarity order of line 103 (`sort(key=..., reverse=True)`,
a stable sort, modelled by Mathlib's stable `insertionSort`). -/
def simDesc (a b : DupMatch) : Prop := b.similarity ≤ a.similarity

noncomputable instance : DecidableRel simDesc :=
  fun a b => Real.decidableLE b.similarity a.similarity

instance : IsTotal DupMatch simDesc := ⟨fun a b => le_total b.similarity a.similarity⟩

instance : IsTrans DupMatch simDesc := ⟨fun _ _ _ hab hbc => le_trans hbc hab⟩

/-- Model of `DuplicateDetectionService.find_similar_chunk` (lines 37-109).
`limit` is accepted (default 5) but never used by the body — the cursor is
hard-limited to 100. -/
noncomputable def find_similar_chunk (provider : List Char → Option (List ℝ)) (θ : ℝ)
    (docs : List CandidateDoc) (source_type : Option (List Char)) (limit : ℕ)
    (text : List Char) : Option DupMatch :=
  match provider text with
  | some (x :: xs) =>
    match List.insertionSort simDesc
        (similaritiesOf provider θ (x :: xs) (candidateWindow source_type docs)) with
    | [] => none
    | m :: _ => some m
  | _ => none

/-- Membership in the similarity list characterised by qualifying
candidates. -/
theorem mem_similaritiesOf (provider : List Char → Option (List ℝ)) (θ : ℝ)
    (e : List ℝ) (cands : List CandidateDoc) (m : DupMatch) :
    m ∈ similaritiesOf provider θ e cands ↔
      ∃ cand ∈ cands, ∃ y ys, provider cand.text = some (y :: ys) ∧
        θ ≤ cosine_similarity e (y :: ys) ∧
        m = mkMatch cand (cosine_similarity e (y :: ys)) := by
  unfold similaritiesOf
  rw [List.mem_filterMap]
  constructor
  · rintro ⟨cand, hcand, hm⟩
    rcases hp : provider cand.text with _ | emb <;> rw [hp] at hm
    · simp at hm
    · rcases emb with _ | ⟨y, ys⟩
      · simp at hm
      · simp at hm
        exact ⟨cand, hcand, y, ys, hp, hm.1, hm.2.symm⟩
  · rintro ⟨cand, hcand, y, ys, hp, hθ, rfl⟩
    refine ⟨cand, hcand, ?_⟩
    rw [hp]
    simp [hθ]

end DuplicateDetection

/-! ## Claims C5 and C10 -/

theorem DuplicateDetection.mkMatch_similarity (cand : CandidateDoc) (s : ℝ) :
    (DuplicateDetection.mkMatch cand s).similarity = s := rfl

/-- C5 (confirmed): `find_similar_chunk` returns absent when the query
embedding fails (the code's check `if not new_embedding:` — `None` or an
empty vector); otherwise it returns a match exactly when some candidate of
the fetched window whose own embedding succeeds scores at or above
`similarity_threshold`; the returned match is such a candidate of maximal
score, carrying that candidate's storage id and
`text_preview = text[:100] + "..."` (via `mkMatch`); candidates whose
embedding fails are merely skipped, the scan continues. -/
theorem claim_C5 (provider : List Char → Option (List ℝ)) (θ : ℝ)
    (docs : List CandidateDoc) (st : Option (List Char)) (limit : ℕ)
    (text : List Char) :
    (provider text = none →
      DuplicateDetection.find_similar_chunk provider θ docs st limit text = none) ∧
    (provider text = some [] →
      DuplicateDetection.find_similar_chunk provider θ docs st limit text = none) ∧
    (∀ x xs, provider text = some (x :: xs) →
      (DuplicateDetection.find_similar_chunk provider θ docs st limit text = none ↔
        ¬ ∃ cand ∈ DuplicateDetection.candidateWindow st docs, ∃ y ys,
          provider cand.text = some (y :: ys) ∧
          θ ≤ DuplicateDetection.cosine_similarity (x :: xs) (y :: ys)) ∧
      (∀ m, DuplicateDetection.find_similar_chunk provider θ docs st limit text = some m →
        ∃ cand ∈ DuplicateDetection.candidateWindow st docs, ∃ y ys,
          provider cand.text = some (y :: ys) ∧
          θ ≤ DuplicateDetection.cosine_similarity (x :: xs) (y :: ys) ∧
          m = DuplicateDetection.mkMatch cand
            (DuplicateDetection.cosine_similarity (x :: xs) (y :: ys)) ∧
          ∀ cand' ∈ DuplicateDetection.candidateWindow st docs, ∀ y' ys',
            provider cand'.text = some (y' :: ys') →
            θ ≤ DuplicateDetection.cosine_similarity (x :: xs) (y' :: ys') →
            DuplicateDetection.cosine_similarity (x :: xs) (y' :: ys') ≤ m.similarity)) := by
  refine ⟨?_, ?_, ?_⟩
  · intro h
    unfold DuplicateDetection.find_similar_chunk
    rw [h]
  · intro h
    unfold DuplicateDetection.find_similar_chunk
    rw [h]
  · intro x xs hx
    have hperm := List.perm_insertionSort DuplicateDetection.simDesc
      (DuplicateDetection.similaritiesOf provider θ (x :: xs)
        (DuplicateDetection.candidateWindow st docs))
    have hsorted := List.sorted_insertionSort DuplicateDetection.simDesc
      (DuplicateDetection.similaritiesOf provider θ (x :: xs)
        (DuplicateDetection.candidateWindow st docs))
    rcases hsort : List.insertionSort DuplicateDetection.simDesc
        (DuplicateDetection.similaritiesOf provider θ (x :: xs)
          (DuplicateDetection.candidateWindow st docs)) with _ | ⟨m0, rest⟩
    · -- empty similarity list: no qualifying candidate exists
      rw [hsort] at hperm
      have hS : DuplicateDetection.similaritiesOf provider θ (x :: xs)
          (DuplicateDetection.candidateWindow st docs) = [] := hperm.symm.eq_nil
      have hres : DuplicateDetection.find_similar_chunk provider θ docs st limit text
          = none := by
        unfold DuplicateDetection.find_similar_chunk
        rw [hx]
        simp only [hsort]
      constructor
      · rw [hres]
        simp only [true_iff]
        rintro ⟨cand, hc, y, ys, hp, hθ⟩
        have : DuplicateDetection.mkMatch cand
            (DuplicateDetection.cosine_similarity (x :: xs) (y :: ys)) ∈
            DuplicateDetection.similaritiesOf provider θ (x :: xs)
              (DuplicateDetection.candidateWindow st docs) :=
          (DuplicateDetection.mem_similaritiesOf provider θ (x :: xs) _ _).mpr
            ⟨cand, hc, y, ys, hp, hθ, rfl⟩
        rw [hS] at this
        exact absurd this (by simp)
      · intro m hm
        rw [hres] at hm
        exact absurd hm (by simp)
    · -- nonempty: the head of the sorted list is returned and is maximal
      have hres : DuplicateDetection.find_similar_chunk provider θ docs st limit text
          = some m0 := by
        unfold DuplicateDetection.find_similar_chunk
        rw [hx]
        simp only [hsort]
      have hm0S : m0 ∈ DuplicateDetection.similaritiesOf provider θ (x :: xs)
          (DuplicateDetection.candidateWindow st docs) := by
        rw [← hperm.mem_iff, hsort]
        exact List.mem_cons_self _ _
      obtain ⟨cand, hc, y, ys, hp, hθ, hmEq⟩ :=
        (DuplicateDetection.mem_similaritiesOf provider θ (x :: xs) _ _).mp hm0S
      constructor
      · rw [hres]
        simp only [iff_false, reduceCtorEq, false_iff, not_not]
        exact ⟨cand, hc, y, ys, hp, hθ⟩
      · intro m hm
        rw [hres] at hm
        simp only [Option.some_inj] at hm
        subst hm
        refine ⟨cand, hc, y, ys, hp, hθ, hmEq, ?_⟩
        intro cand' hc' y' ys' hp' hθ'
        have hmem' : DuplicateDetection.mkMatch cand'
            (DuplicateDetection.cosine_similarity (x :: xs) (y' :: ys')) ∈
            DuplicateDetection.similaritiesOf provider θ (x :: xs)
              (DuplicateDetection.candidateWindow st docs) :=
          (DuplicateDetection.mem_similaritiesOf provider θ (x :: xs) _ _).mpr
            ⟨cand', hc', y', ys', hp', hθ', rfl⟩
        rw [← hperm.mem_iff, hsort] at hmem'
        rcases List.mem_cons.mp hmem' with heq | hrest
        · rw [← heq, DuplicateDetection.mkMatch_similarity]
        · rw [hsort] at hsorted
          have := (List.sorted_cons.mp hsorted).1 _ hrest
          unfold DuplicateDetection.simDesc at this
          rw [DuplicateDetection.mkMatch_similarity] at this
          exact this

/-- C5 witness: the theorem instantiated with the one-candidate store
`[⟨7, "dup", "pk", "article", 3⟩]`, threshold `1/2`, and the provider that
fails on `"bad"` and returns the embedding `[1]` elsewhere; each hypothesis
of the three conjuncts is discharged at its own concrete query text. -/
theorem claim_C5_witness :
    ((fun t => if t = ("bad").toList then none else some [(1 : ℝ)]) ("bad").toList = none →
      DuplicateDetection.find_similar_chunk
        (fun t => if t = ("bad").toList then none else some [(1 : ℝ)]) (1 / 2)
        [{ id := 7, text := ("dup").toList, pk := ("pk").toList,
           source_type := ("article").toList, created_at := 3 }]
        none 5 ("bad").toList = none) ∧
    ((fun t => if t = ("bad").toList then none else some [(1 : ℝ)]) ("bad").toList = some [] →
      DuplicateDetection.find_similar_chunk
        (fun t => if t = ("bad").toList then none else some [(1 : ℝ)]) (1 / 2)
        [{ id := 7, text := ("dup").toList, pk := ("pk").toList,
           source_type := ("article").toList, created_at := 3 }]
        none 5 ("bad").toList = none) ∧
    (∀ x xs, (fun t => if t = ("bad").toList then none else some [(1 : ℝ)]) ("bad").toList =
        some (x :: xs) →
      (DuplicateDetection.find_similar_chunk
          (fun t => if t = ("bad").toList then none else some [(1 : ℝ)]) (1 / 2)
          [{ id := 7, text := ("dup").toList, pk := ("pk").toList,
             source_type := ("article").toList, created_at := 3 }]
          none 5 ("bad").toList = none ↔
        ¬ ∃ cand ∈ DuplicateDetection.candidateWindow none
            [{ id := 7, text := ("dup").toList, pk := ("pk").toList,
               source_type := ("article").toList, created_at := 3 }], ∃ y ys,
          (fun t => if t = ("bad").toList then none else some [(1 : ℝ)]) cand.text =
            some (y :: ys) ∧
          (1 / 2 : ℝ) ≤ DuplicateDetection.cosine_similarity (x :: xs) (y :: ys)) ∧
      (∀ m, DuplicateDetection.find_similar_chunk
          (fun t => if t = ("bad").toList then none else some [(1 : ℝ)]) (1 / 2)
          [{ id := 7, text := ("dup").toList, pk := ("pk").toList,
             source_type := ("article").toList, created_at := 3 }]
          none 5 ("bad").toList = some m →
        ∃ cand ∈ DuplicateDetection.candidateWindow none
            [{ id := 7, text := ("dup").toList, pk := ("pk").toList,
               source_type := ("article").toList, created_at := 3 }], ∃ y ys,
          (fun t => if t = ("bad").toList then none else some [(1 : ℝ)]) cand.text =
            some (y :: ys) ∧
          (1 / 2 : ℝ) ≤ DuplicateDetection.cosine_similarity (x :: xs) (y :: ys) ∧
          m = DuplicateDetection.mkMatch cand
            (DuplicateDetection.cosine_similarity (x :: xs) (y :: ys)) ∧
          ∀ cand' ∈ DuplicateDetection.candidateWindow none
              [{ id := 7, text := ("dup").toList, pk := ("pk").toList,
                 source_type := ("article").toList, created_at := 3 }], ∀ y' ys',
            (fun t => if t = ("bad").toList then none else some [(1 : ℝ)]) cand'.text =
              some (y' :: ys') →
            (1 / 2 : ℝ) ≤ DuplicateDetection.cosine_similarity (x :: xs) (y' :: ys') →
            DuplicateDetection.cosine_similarity (x :: xs) (y' :: ys') ≤ m.similarity)) :=
  claim_C5 (fun t => if t = ("bad").toList then none else some [(1 : ℝ)]) (1 / 2)
    [{ id := 7, text := ("dup").toList, pk := ("pk").toList,
       source_type := ("article").toList, created_at := 3 }]
    none 5 ("bad").toList

/-- C10 (confirmed): `find_similar_chunk` never reads its `limit`
parameter — the candidate window is always the 100 most recent chunks — so
two calls differing only in `limit` return the same result. -/
theorem claim_C10 (provider : List Char → Option (List ℝ)) (θ : ℝ)
    (docs : List CandidateDoc) (st : Option (List Char)) (text : List Char)
    (limit₁ limit₂ : ℕ) :
    DuplicateDetection.find_similar_chunk provider θ docs st limit₁ text =
      DuplicateDetection.find_similar_chunk provider θ docs st limit₂ text := rfl

/-! ## EmbeddingService.generate_embeddings_batch (embeddings.py:96-201)

The OpenAI client is external: it is modelled by
* `embedOf : List Char → List ℝ` — the vector the provider returns for a
  text when a call succeeds (`response.data` carries one embedding per
  input, in order, per the API contract), and
* `oracle : ℕ → CallOutcome` — the outcome of the n-th `embeddings.create`
  call, covering every behaviour: success, rate-limit errors (line 158),
  and other errors, each error carrying whether its message also matches
  the batch-too-large keyword test of lines 193-195.
`time.sleep` backoffs do not affect values and are dropped. -/

/-- Outcome of one `embeddings.create` call. -/
inductive CallOutcome where
  | success : CallOutcome
  | failure (isRateLimit : Bool) (sizeKeyword : Bool) : CallOutcome

/-- Lines 128-133 (and 62-64): texts longer than `8000 * 4` characters are
truncated before the call. -/
def pyTruncate (t : List Char) : List Char :=
  if t.length > 8000 * 4 then t.take (8000 * 4) else t

namespace EmbeddingService

/-- The retry loop of lines 138-176 for one batch: attempt the call; on a
rate-limit error with retries left, try again (`current_retry + 1`);
otherwise re-raise, carrying the error's keyword flag for the outer
handler.  Returns the result together with the next call index. -/
def attemptBatch (oracle : ℕ → CallOutcome) (embedOf : List Char → List ℝ)
    (maxRetries : ℕ) (batch : List (List Char)) (callIdx current_retry : ℕ) :
    Except Bool (List (List ℝ)) × ℕ :=
  match oracle callIdx with
  | .success => (Except.ok ((batch.map pyTruncate).map embedOf), callIdx + 1)
  | .failure rl kw =>
    if rl ∧ current_retry < maxRetries then
      attemptBatch oracle embedOf maxRetries batch (callIdx + 1) (current_retry + 1)
    else (Except.error kw, callIdx + 1)
termination_by maxRetries - current_retry
decreasing_by omega

/-- The `for i in range(0, len(texts), batch_size)` loop of lines 124-184:
process the batches in order, concatenating the returned embeddings; a
raised error aborts the loop and propagates. -/
def processBatches (oracle : ℕ → CallOutcome) (embedOf : List Char → List ℝ)
    (maxRetries : ℕ) : List (List (List Char)) → ℕ → Except Bool (List (List ℝ)) × ℕ
  | [], callIdx => (Except.ok [], callIdx)
  | b :: bs, callIdx =>
    match attemptBatch oracle embedOf maxRetries b callIdx 0 with
    | (Except.ok embs, idx') =>
      match processBatches oracle embedOf maxRetries bs idx' with
      | (Except.ok more, idx'') => (Except.ok (embs ++ more), idx'')
      | (Except.error kw, idx'') => (Except.error kw, idx'')
    | (Except.error kw, idx') => (Except.error kw, idx')

/-- The `texts[i:i+batch_size]` slices of the batch loop.  (Python raises on
`batch_size = 0`; the claim's precondition excludes it, and the model
returns no batches there.) -/
def splitBatches (batch_size : ℕ) (l : List (List Char)) : List (List (List Char)) :=
  if l = [] ∨ batch_size = 0 then [] else
    l.take batch_size :: splitBatches batch_size (l.drop batch_size)
termination_by l.length
decreasing_by
  rename_i h
  push_neg at h
  have : l ≠ [] := h.1
  have : 0 < batch_size := Nat.pos_of_ne_zero h.2
  have : 0 < l.length := List.length_pos.mpr h.1
  simp only [List.length_drop]
  omega

/-- Model of `EmbeddingService.generate_embeddings_batch` (lines 96-201): empty
input gives `[]`; an uninitialised client gives all-absent; otherwise run
the batches, and on an escaped error either retry the whole list with the
halved batch size `max(batch_size // 2, 10)` (message matching the size
keywords, fewer than 5 outer retries) or give all-absent. -/
def generate_embeddings_batch (oracle : ℕ → CallOutcome) (embedOf : List Char → List ℝ)
    (maxRetries : ℕ) (clientInit : Bool) (texts : List (List Char))
    (batch_size retry_count callIdx : ℕ) : List (Option (List ℝ)) :=
  if texts = [] then []
  else if ¬ clientInit then List.replicate texts.length none
  else
    match processBatches oracle embedOf maxRetries (splitBatches batch_size texts) callIdx with
    | (Except.ok embs, _) => embs.map some
    | (Except.error kw, idx') =>
      if kw ∧ retry_count < 5 then
        generate_embeddings_batch oracle embedOf maxRetries clientInit texts
          (max (batch_size / 2) 10) (retry_count + 1) idx'
      else List.replicate texts.length none
termination_by 5 - retry_count
decreasing_by
  rename_i h
  omega

theorem attemptBatch_ok (oracle : ℕ → CallOutcome) (embedOf : List Char → List ℝ)
    (maxRetries : ℕ) (batch : List (List Char)) :
    ∀ callIdx current_retry embs idx',
    attemptBatch oracle embedOf maxRetries batch callIdx current_retry =
      (Except.ok embs, idx') →
    embs = batch.map (fun t => embedOf (pyTruncate t)) := by
  intro callIdx current_retry
  generalize hk : maxRetries - current_retry = k
  induction k using Nat.strong_induction_on generalizing callIdx current_retry with
  | _ k ih =>
    intro embs idx' h
    rw [attemptBatch] at h
    rcases horacle : oracle callIdx with _ | ⟨rl, kw⟩ <;> simp only [horacle] at h
    · simp only [Prod.mk.injEq, Except.ok.injEq] at h
      rw [← h.1, List.map_map]
      rfl
    · split at h
      · rename_i hcond
        obtain ⟨hrl, hlt⟩ := hcond
        subst hk
        exact ih (maxRetries - (current_retry + 1)) (by omega) (callIdx + 1)
          (current_retry + 1) rfl embs idx' h
      · simp only [Prod.mk.injEq] at h
        exact absurd h.1 (by simp)

theorem processBatches_ok (oracle : ℕ → CallOutcome) (embedOf : List Char → List ℝ)
    (maxRetries : ℕ) :
    ∀ batches callIdx embs idx',
    processBatches oracle embedOf maxRetries batches callIdx = (Except.ok embs, idx') →
    embs = batches.flatten.map (fun t => embedOf (pyTruncate t)) := by
  intro batches
  induction batches with
  | nil =>
    intro callIdx embs idx' h
    rw [processBatches] at h
    simp only [Prod.mk.injEq, Except.ok.injEq] at h
    simp [← h.1]
  | cons b bs ih =>
    intro callIdx embs idx' h
    rw [processBatches] at h
    rcases ha : attemptBatch oracle embedOf maxRetries b callIdx 0 with ⟨res, idxa⟩
    rcases res with kw | embsb
    · simp only [ha, Prod.mk.injEq] at h
      exact absurd h.1 (by simp)
    · rcases hp : processBatches oracle embedOf maxRetries bs idxa with ⟨res2, idxb⟩
      rcases res2 with kw2 | more
      · simp only [ha, hp, Prod.mk.injEq] at h
        exact absurd h.1 (by simp)
      · simp only [ha, hp, Prod.mk.injEq, Except.ok.injEq] at h
        rw [← h.1, List.flatten_cons, List.map_append]
        rw [attemptBatch_ok oracle embedOf maxRetries b callIdx 0 embsb idxa ha,
          ih idxa more idxb hp]

theorem splitBatches_flatten (batch_size : ℕ) (hbs : 0 < batch_size) :
    ∀ l : List (List Char), (splitBatches batch_size l).flatten = l := by
  intro l
  generalize hn : l.length = n
  induction n using Nat.strong_induction_on generalizing l with
  | _ n ih =>
    rw [splitBatches]
    by_cases hl : l = []
    · rw [if_pos (Or.inl hl), hl]
      rfl
    · rw [if_neg (by push_neg; exact ⟨hl, by omega⟩), List.flatten_cons]
      have hlen : 0 < l.length := List.length_pos.mpr hl
      rw [ih (l.drop batch_size).length (by simp; omega) _ rfl]
      exact List.take_append_drop batch_size l

/-- The result of the batch embedder is always either the full success
list or the all-absent list. -/
theorem generate_dichotomy (oracle : ℕ → CallOutcome) (embedOf : List Char → List ℝ)
    (maxRetries : ℕ) (clientInit : Bool) (texts : List (List Char)) :
    ∀ k retry_count, 5 - retry_count ≤ k → ∀ batch_size callIdx, 0 < batch_size →
    generate_embeddings_batch oracle embedOf maxRetries clientInit texts
        batch_size retry_count callIdx =
      texts.map (fun t => some (embedOf (pyTruncate t))) ∨
    generate_embeddings_batch oracle embedOf maxRetries clientInit texts
        batch_size retry_count callIdx = List.replicate texts.length none := by
  intro k
  induction k with
  | zero =>
    intro retry_count hk batch_size callIdx hbs
    rw [generate_embeddings_batch]
    by_cases ht : texts = []
    · rw [if_pos ht, ht]
      left; rfl
    · rw [if_neg ht]
      by_cases hc : clientInit
      · rw [if_neg (by simpa using hc)]
        rcases hp : processBatches oracle embedOf maxRetries
            (splitBatches batch_size texts) callIdx with ⟨res, idx'⟩
        rcases res with kw | embs
        · right
          simp only [hp]
          rw [if_neg (by rintro ⟨h1, h2⟩; omega)]
        · left
          simp only [hp]
          rw [processBatches_ok oracle embedOf maxRetries _ _ _ _ hp,
            splitBatches_flatten batch_size hbs texts, List.map_map]
          rfl
      · rw [if_pos (by simpa using hc)]
        right; rfl
  | succ k ih =>
    intro retry_count hk batch_size callIdx hbs
    rw [generate_embeddings_batch]
    by_cases ht : texts = []
    · rw [if_pos ht, ht]
      left; rfl
    · rw [if_neg ht]
      by_cases hc : clientInit
      · rw [if_neg (by simpa using hc)]
        rcases hp : processBatches oracle embedOf maxRetries
            (splitBatches batch_size texts) callIdx with ⟨res, idx'⟩
        rcases res with kw | embs
        · by_cases hcond : kw = true ∧ retry_count < 5
          · simp only [hp]
            rw [if_pos hcond]
            exact ih (retry_count + 1) (by omega) (max (batch_size / 2) 10) idx'
              (lt_of_lt_of_le (by norm_num) (le_max_right _ _))
          · right
            simp only [hp]
            rw [if_neg hcond]
        · left
          simp only [hp]
          rw [processBatches_ok oracle embedOf maxRetries _ _ _ _ hp,
            splitBatches_flatten batch_size hbs texts, List.map_map]
          rfl
      · rw [if_pos (by simpa using hc)]
        right; rfl

end EmbeddingService

/-! ## Claim C8 -/

/-- C8 (confirmed): for every provider behaviour (success, per-batch
failures, retried or exhausted rate limits, size-keyword recursion with a
halved batch size), `generate_embeddings_batch` returns one entry per
input text, in order: the i-th entry is either absent or the provider's
embedding of the (truncated) i-th text. -/
theorem claim_C8 (oracle : ℕ → CallOutcome) (embedOf : List Char → List ℝ)
    (maxRetries : ℕ) (clientInit : Bool) (texts : List (List Char))
    (batch_size retry_count callIdx : ℕ) (hbs : 0 < batch_size) :
    (EmbeddingService.generate_embeddings_batch oracle embedOf maxRetries clientInit
        texts batch_size retry_count callIdx).length = texts.length ∧
    ∀ (i : ℕ) (t : List Char), texts[i]? = some t →
      (EmbeddingService.generate_embeddings_batch oracle embedOf maxRetries clientInit
          texts batch_size retry_count callIdx)[i]? = some none ∨
      (EmbeddingService.generate_embeddings_batch oracle embedOf maxRetries clientInit
          texts batch_size retry_count callIdx)[i]? =
        some (some (embedOf (pyTruncate t))) := by
  rcases EmbeddingService.generate_dichotomy oracle embedOf maxRetries clientInit texts
      (5 - retry_count) retry_count le_rfl batch_size callIdx hbs with h | h
  · rw [h]
    refine ⟨List.length_map _ _, ?_⟩
    intro i t ht
    right
    rw [List.getElem?_map, ht]
    rfl
  · rw [h]
    refine ⟨List.length_replicate _ _, ?_⟩
    intro i t ht
    left
    have hi : i < texts.length := by
      by_contra hc
      push_neg at hc
      rw [List.getElem?_eq_none hc] at ht
      exact absurd ht (by simp)
    rw [List.getElem?_replicate, if_pos hi]

/-- C8 witness: the theorem instantiated with an always-succeeding provider
mapping every text to `[1]`, on the single text `"a"`, batch size 1. -/
theorem claim_C8_witness :
    (EmbeddingService.generate_embeddings_batch (fun _ => CallOutcome.success)
        (fun _ => [(1 : ℝ)]) 2 true [("a").toList] 1 0 0).length = [("a").toList].length ∧
    ∀ (i : ℕ) (t : List Char), [("a").toList][i]? = some t →
      (EmbeddingService.generate_embeddings_batch (fun _ => CallOutcome.success)
          (fun _ => [(1 : ℝ)]) 2 true [("a").toList] 1 0 0)[i]? = some none ∨
      (EmbeddingService.generate_embeddings_batch (fun _ => CallOutcome.success)
          (fun _ => [(1 : ℝ)]) 2 true [("a").toList] 1 0 0)[i]? =
        some (some ((fun _ => [(1 : ℝ)]) (pyTruncate t))) :=
  claim_C8 (fun _ => CallOutcome.success) (fun _ => [(1 : ℝ)]) 2 true [("a").toList]
    1 0 0 (by decide)

/-! ## TagGenerator.generate_tags (src/app/services/tag_generator.py:188-233)

The function pools tags from four extractors (domain keywords, frequency
keywords, TF-IDF keywords via scikit-learn — an external library — and
capitalised-entity heuristics) into the Python set `all_tags`, then runs
`tags = list(all_tags)[:max_tags]; tags.sort()`.  A CPython set iterates in
implementation-defined (hash) order, so the model takes `list(all_tags)` as
a parameter: an arbitrary duplicate-free enumeration `all_tags_enum`; which
strings the extractors contribute does not matter for this claim.  Tags are
any linearly ordered type (strings ordered lexicographically in Python);
`list.sort()` is the stable ascending sort. -/

namespace TagGenerator

/-- Lines 227-233 of `generate_tags`: truncate the set enumeration to
`max_tags` entries and sort ascending. -/
def generate_tags {α : Type} [LinearOrder α] (all_tags_enum : List α)
    (max_tags : ℕ) : List α :=
  List.insertionSort (· ≤ ·) (all_tags_enum.take max_tags)

end TagGenerator

/-! ## Claim C7 -/

/-- C7 (confirmed): for every `max_tags` and every (duplicate-free)
enumeration of the tag set, `generate_tags` returns at most `max_tags`
entries, with no duplicates, sorted ascending. -/
theorem claim_C7 {α : Type} [LinearOrder α] (all_tags_enum : List α) (max_tags : ℕ)
    (h : all_tags_enum.Nodup) :
    (TagGenerator.generate_tags all_tags_enum max_tags).length ≤ max_tags ∧
    (TagGenerator.generate_tags all_tags_enum max_tags).Nodup ∧
    (TagGenerator.generate_tags all_tags_enum max_tags).Sorted (· ≤ ·) := by
  unfold TagGenerator.generate_tags
  refine ⟨?_, ?_, ?_⟩
  · rw [(List.perm_insertionSort _ _).length_eq]
    exact List.length_take_le _ _
  · exact ((List.perm_insertionSort _ _).nodup_iff).mpr
      (h.sublist (List.take_sublist _ _))
  · exact List.sorted_insertionSort _ _

/-- C7 witness at the tag enumeration `["space", "mars", "nasa"]` (as
character lists) with `max_tags = 2`. -/
theorem claim_C7_witness :
    (TagGenerator.generate_tags [("space").toList, ("mars").toList, ("nasa").toList]
      2).length ≤ 2 ∧
    (TagGenerator.generate_tags [("space").toList, ("mars").toList, ("nasa").toList]
      2).Nodup ∧
    (TagGenerator.generate_tags [("space").toList, ("mars").toList, ("nasa").toList]
      2).Sorted (· ≤ ·) :=
  claim_C7 [("space").toList, ("mars").toList, ("nasa").toList] 2 (by decide)

/-! ## source_key / pk normalisation
(src/app/api/v1/routes/articles.py:200-204 and src/app/core/startup.py:126-132)

```
normalized_pk = "".join(c if c.isalnum() else '-' for c in title.lower()).strip('-')
while '--' in normalized_pk:
    normalized_pk = normalized_pk.replace('--', '-')
```
`str.isalnum` is modelled for ASCII as letter-or-digit. -/

/-- ASCII model of Python `str.isalnum` on one character. -/
def pyIsAlnum (c : Char) : Bool := c.isAlpha || c.isDigit

/-- Python `s.strip('-')`: drop leading and trailing hyphens. -/
def stripDashes (l : List Char) : List Char :=
  ((l.dropWhile (· = '-')).reverse.dropWhile (· = '-')).reverse

/-- One round of `s.replace('--', '-')` (left-to-right, non-overlapping). -/
def replaceDD : List Char → List Char
  | [] => []
  | [c] => [c]
  | c :: d :: rest =>
    if c = '-' ∧ d = '-' then '-' :: replaceDD rest
    else c :: replaceDD (d :: rest)

/-- Python `'--' in s`. -/
def hasDD : List Char → Bool
  | [] => false
  | [_] => false
  | c :: d :: rest => (decide (c = '-') && decide (d = '-')) || hasDD (d :: rest)

theorem replaceDD_length_le (l : List Char) : (replaceDD l).length ≤ l.length := by
  suffices h : ∀ n (l : List Char), l.length ≤ n → (replaceDD l).length ≤ l.length from
    h l.length l le_rfl
  intro n
  induction n with
  | zero =>
    intro l hl
    have hl0 : l = [] := List.length_eq_zero.mp (by omega)
    subst hl0
    simp [replaceDD]
  | succ n ih =>
    intro l hl
    rcases l with _ | ⟨c, _ | ⟨d, rest⟩⟩
    · simp [replaceDD]
    · simp [replaceDD]
    · rw [replaceDD]
      split
      · have := ih rest (by simp only [List.length_cons] at hl; omega)
        simp only [List.length_cons]
        omega
      · have := ih (d :: rest) (by simp only [List.length_cons] at hl ⊢; omega)
        simp only [List.length_cons] at this ⊢
        omega

theorem replaceDD_length_lt (l : List Char) (h : hasDD l = true) :
    (replaceDD l).length < l.length := by
  suffices hs : ∀ n (l : List Char), l.length ≤ n → hasDD l = true →
      (replaceDD l).length < l.length from hs l.length l le_rfl h
  clear h l
  intro n
  induction n with
  | zero =>
    intro l hl h
    have hl0 : l = [] := List.length_eq_zero.mp (by omega)
    subst hl0
    simp [hasDD] at h
  | succ n ih =>
    intro l hl h
    rcases l with _ | ⟨c, _ | ⟨d, rest⟩⟩
    · simp [hasDD] at h
    · simp [hasDD] at h
    · rw [replaceDD]
      split
      · have := replaceDD_length_le rest
        simp only [List.length_cons]
        omega
      · rename_i hcd
        rw [hasDD] at h
        simp only [Bool.or_eq_true, Bool.and_eq_true, decide_eq_true_eq] at h
        rcases h with h | h
        · exact absurd h hcd
        · have := ih (d :: rest) (by simp only [List.length_cons] at hl ⊢; omega) h
          simp only [List.length_cons] at this ⊢
          omega

/-- The `while '--' in s: s = s.replace('--', '-')` loop. -/
def collapseLoop (l : List Char) : List Char :=
  if h : hasDD l = true then collapseLoop (replaceDD l) else l
termination_by l.length
decreasing_by exact replaceDD_length_lt l h

/-- The `normalized_pk` as computed by the article-ingestion route
(articles.py:200-204). -/
def normalized_pk_articles (title : List Char) : List Char :=
  collapseLoop (stripDashes
    ((title.map Char.toLower).map fun c => if pyIsAlnum c then c else '-'))

/-- The `normalized_pk` as computed by the startup loader
(startup.py:126-132); the two sites are character-for-character the same
computation. -/
def normalized_pk_startup (title : List Char) : List Char :=
  collapseLoop (stripDashes
    ((title.map Char.toLower).map fun c => if pyIsAlnum c then c else '-'))

/-- Collapsing every run of consecutive hyphens to a single hyphen, in one
pass (the claim's description of the normalisation). -/
def specCollapse : List Char → List Char
  | [] => []
  | [c] => [c]
  | c :: d :: rest =>
    if c = '-' ∧ d = '-' then specCollapse (d :: rest)
    else c :: specCollapse (d :: rest)

/-- The claim's description of `source_key`: lowercase, replace every
non-alphanumeric character with a hyphen, collapse hyphen runs, trim
leading and trailing hyphens. -/
def spec_normalize (title : List Char) : List Char :=
  stripDashes (specCollapse
    ((title.map Char.toLower).map fun c => if pyIsAlnum c then c else '-'))

theorem dropWhile_dropWhile {α : Type} (p : α → Bool) (l : List α) :
    (l.dropWhile p).dropWhile p = l.dropWhile p := by
  induction l with
  | nil => rfl
  | cons c cs ih =>
    by_cases hc : p c
    · rw [List.dropWhile_cons_of_pos hc, ih]
    · rw [List.dropWhile_cons_of_neg hc, List.dropWhile_cons_of_neg hc]

theorem specCollapse_cons_ne (c : Char) (xs : List Char) (hc : c ≠ '-') :
    specCollapse (c :: xs) = c :: specCollapse xs := by
  cases xs with
  | nil => rfl
  | cons d rest =>
    rw [specCollapse, if_neg]
    rintro ⟨h1, _⟩
    exact hc h1

theorem specCollapse_dash (xs : List Char) :
    specCollapse ('-' :: xs) = '-' :: specCollapse (xs.dropWhile (· = '-')) := by
  suffices h : ∀ n (xs : List Char), xs.length ≤ n →
      specCollapse ('-' :: xs) = '-' :: specCollapse (xs.dropWhile (· = '-')) from
    h xs.length xs le_rfl
  intro n
  induction n with
  | zero =>
    intro xs hl
    have h0 : xs = [] := List.length_eq_zero.mp (by omega)
    subst h0
    rfl
  | succ n ih =>
    intro xs hl
    rcases xs with _ | ⟨x, rest⟩
    · rfl
    · by_cases hx : x = '-'
      · subst hx
        rw [specCollapse, if_pos ⟨rfl, rfl⟩,
          ih rest (by simp only [List.length_cons] at hl; omega),
          List.dropWhile_cons_of_pos (by simp)]
      · rw [specCollapse, if_neg (by rintro ⟨_, h2⟩; exact hx h2),
          List.dropWhile_cons_of_neg (by simpa using hx)]

theorem hasDD_false_specCollapse (l : List Char) (h : hasDD l = false) :
    specCollapse l = l := by
  induction l with
  | nil => rfl
  | cons c tail ih =>
    cases tail with
    | nil => rfl
    | cons d rest =>
      rw [hasDD] at h
      simp only [Bool.or_eq_false_iff, Bool.and_eq_false_iff] at h
      rw [specCollapse, if_neg, ih h.2]
      rintro ⟨h1, h2⟩
      rcases h.1 with hb | hb <;> simp [h1, h2] at hb

theorem specCollapse_dropWhile (l : List Char) :
    specCollapse (l.dropWhile (· = '-')) = (specCollapse l).dropWhile (· = '-') := by
  suffices h : ∀ n (l : List Char), l.length ≤ n →
      specCollapse (l.dropWhile (· = '-')) = (specCollapse l).dropWhile (· = '-') from
    h l.length l le_rfl
  intro n
  induction n with
  | zero =>
    intro l hl
    have h0 : l = [] := List.length_eq_zero.mp (by omega)
    subst h0
    rfl
  | succ n ih =>
    intro l hl
    rcases l with _ | ⟨c, _ | ⟨d, rest⟩⟩
    · rfl
    · by_cases hc : c = '-'
      · subst hc
        rw [List.dropWhile_cons_of_pos (by simp)]
        rfl
      · rw [List.dropWhile_cons_of_neg (by simpa using hc)]
        show specCollapse [c] = List.dropWhile (· = '-') (specCollapse [c])
        rw [show specCollapse [c] = [c] from rfl,
          List.dropWhile_cons_of_neg (by simpa using hc)]
    · by_cases hc : c = '-'
      · subst hc
        rw [List.dropWhile_cons_of_pos (by simp)]
        by_cases hd : d = '-'
        · subst hd
          rw [List.dropWhile_cons_of_pos (by simp), specCollapse, if_pos ⟨rfl, rfl⟩,
            ih rest (by simp only [List.length_cons] at hl; omega), specCollapse_dash,
            List.dropWhile_cons_of_pos (by simp)]
          rw [show List.dropWhile (· = '-') (specCollapse (List.dropWhile (· = '-') rest)) =
            List.dropWhile (· = '-')
              (List.dropWhile (· = '-') (specCollapse rest)) from by
            rw [ih rest (by simp only [List.length_cons] at hl; omega)]]
          rw [dropWhile_dropWhile]
        · rw [List.dropWhile_cons_of_neg (by simpa using hd), specCollapse,
            if_neg (by rintro ⟨_, h2⟩; exact hd h2),
            List.dropWhile_cons_of_pos (by simp),
            specCollapse_cons_ne d rest hd,
            List.dropWhile_cons_of_neg (by simpa using hd)]
      · rw [List.dropWhile_cons_of_neg (by simpa using hc)]
        by_cases hd : d = '-'
        · subst hd
          rw [specCollapse, if_neg (by rintro ⟨h1, _⟩; exact hc h1),
            List.dropWhile_cons_of_neg (by simpa using hc)]
        · rw [specCollapse, if_neg (by rintro ⟨h1, _⟩; exact hc h1),
            List.dropWhile_cons_of_neg (by simpa using hc)]

theorem specCollapse_append_single (l : List Char) (c : Char) :
    specCollapse (l ++ [c]) =
      if l.getLast? = some '-' ∧ c = '-' then specCollapse l
      else specCollapse l ++ [c] := by
  suffices h : ∀ n (l : List Char), l.length ≤ n → ∀ c, specCollapse (l ++ [c]) =
      if l.getLast? = some '-' ∧ c = '-' then specCollapse l
      else specCollapse l ++ [c] from h l.length l le_rfl c
  intro n
  induction n with
  | zero =>
    intro l hl c
    have h0 : l = [] := List.length_eq_zero.mp (by omega)
    subst h0
    simp [specCollapse]
  | succ n ih =>
    intro l hl c
    rcases l with _ | ⟨a, _ | ⟨b, rest⟩⟩
    · simp [specCollapse]
    · by_cases hac : a = '-' ∧ c = '-'
      · obtain ⟨ha, hc2⟩ := hac
        subst ha
        subst hc2
        decide
      · have h1 : specCollapse [a, c] = a :: specCollapse [c] := by
          show (if a = '-' ∧ c = '-' then specCollapse [c] else a :: specCollapse [c]) = _
          rw [if_neg hac]
        simp only [List.singleton_append]
        rw [h1, if_neg (by simpa using hac)]
        rfl
    · have hstep : (a :: b :: rest) ++ [c] = a :: ((b :: rest) ++ [c]) := rfl
      rw [hstep, List.getLast?_cons_cons]
      have hbr : (b :: rest) ++ [c] = b :: (rest ++ [c]) := rfl
      have ihb := ih (b :: rest) (by simp only [List.length_cons] at hl ⊢; omega) c
      by_cases hab : a = '-' ∧ b = '-'
      · rw [show specCollapse (a :: (b :: rest ++ [c])) =
            specCollapse (b :: rest ++ [c]) from by
            rw [hbr, specCollapse, if_pos ⟨hab.1, hab.2⟩]]
        rw [ihb, specCollapse, if_pos hab]
      · rw [show specCollapse (a :: (b :: rest ++ [c])) =
            a :: specCollapse (b :: rest ++ [c]) from by
            rw [hbr, specCollapse, if_neg (by simpa using hab)]]
        rw [ihb, specCollapse, if_neg hab]
        by_cases hq : (b :: rest).getLast? = some '-' ∧ c = '-'
        · rw [if_pos hq, if_pos hq]
        · rw [if_neg hq, if_neg hq]
          rfl

theorem specCollapse_reverse (l : List Char) :
    specCollapse l.reverse = (specCollapse l).reverse := by
  induction l with
  | nil => rfl
  | cons c tail ih =>
    rw [List.reverse_cons, specCollapse_append_single, List.getLast?_reverse]
    cases tail with
    | nil => simp [specCollapse]
    | cons d rest =>
      rw [specCollapse]
      by_cases hcd : c = '-' ∧ d = '-'
      · rw [if_pos (by simpa [hcd.2] using hcd.1), if_pos ⟨hcd.1, hcd.2⟩, ih]
      · rw [if_neg (by simpa using fun h2 h1 => hcd ⟨h1, h2⟩), if_neg hcd, ih,
          List.reverse_cons]

theorem specCollapse_stripDashes (l : List Char) :
    specCollapse (stripDashes l) = stripDashes (specCollapse l) := by
  unfold stripDashes
  rw [specCollapse_reverse, specCollapse_dropWhile, specCollapse_reverse,
    specCollapse_dropWhile]

theorem specCollapse_replaceDD (l : List Char) :
    specCollapse (replaceDD l) = specCollapse l := by
  suffices h : ∀ n (l : List Char), l.length ≤ n →
      specCollapse (replaceDD l) = specCollapse l from h l.length l le_rfl
  intro n
  induction n with
  | zero =>
    intro l hl
    have h0 : l = [] := List.length_eq_zero.mp (by omega)
    subst h0
    rfl
  | succ n ih =>
    intro l hl
    rcases l with _ | ⟨c, _ | ⟨d, rest⟩⟩
    · rfl
    · rfl
    · rw [replaceDD]
      split
      · rename_i hcd
        rw [hcd.1, hcd.2] at *
        rw [specCollapse_dash, specCollapse_dash,
          List.dropWhile_cons_of_pos (by simp),
          specCollapse_dropWhile, specCollapse_dropWhile,
          ih rest (by simp only [List.length_cons] at hl; omega)]
      · rename_i hcd
        by_cases hc : c = '-'
        · subst hc
          have hd : d ≠ '-' := by
            intro hd
            exact hcd ⟨rfl, hd⟩
          rw [specCollapse_dash, specCollapse_dash]
          have hr := ih (d :: rest) (by simp only [List.length_cons] at hl ⊢; omega)
          rw [specCollapse_dropWhile, specCollapse_dropWhile, hr]
        · rw [specCollapse_cons_ne c _ hc, specCollapse_cons_ne c _ hc,
            ih (d :: rest) (by simp only [List.length_cons] at hl ⊢; omega)]

theorem collapseLoop_eq_specCollapse (l : List Char) :
    collapseLoop l = specCollapse l := by
  suffices h : ∀ n (l : List Char), l.length ≤ n → collapseLoop l = specCollapse l from
    h l.length l le_rfl
  intro n
  induction n with
  | zero =>
    intro l hl
    have h0 : l = [] := List.length_eq_zero.mp (by omega)
    subst h0
    rw [collapseLoop]
    rfl
  | succ n ih =>
    intro l hl
    rw [collapseLoop]
    split
    · rename_i hdd
      have hlt := replaceDD_length_lt l hdd
      rw [ih (replaceDD l) (by omega), specCollapse_replaceDD]
    · rename_i hdd
      rw [hasDD_false_specCollapse l (by simpa using hdd)]

theorem hasDD_collapseLoop (l : List Char) : hasDD (collapseLoop l) = false := by
  suffices h : ∀ n (l : List Char), l.length ≤ n → hasDD (collapseLoop l) = false from
    h l.length l le_rfl
  intro n
  induction n with
  | zero =>
    intro l hl
    have h0 : l = [] := List.length_eq_zero.mp (by omega)
    subst h0
    rw [collapseLoop]
    rfl
  | succ n ih =>
    intro l hl
    rw [collapseLoop]
    split
    · rename_i hdd
      have hlt := replaceDD_length_lt l hdd
      exact ih (replaceDD l) (by omega)
    · rename_i hdd
      simpa using hdd

theorem dropWhile_dash_head (l : List Char) :
    (l.dropWhile (· = '-')).head? ≠ some '-' := by
  induction l with
  | nil => simp
  | cons c cs ih =>
    by_cases hc : c = '-'
    · rw [List.dropWhile_cons_of_pos (by simpa using hc)]
      exact ih
    · rw [List.dropWhile_cons_of_neg (by simpa using hc)]
      simpa using hc

theorem stripDashes_getLast (l : List Char) :
    (stripDashes l).getLast? ≠ some '-' := by
  unfold stripDashes
  rw [List.getLast?_reverse]
  exact dropWhile_dash_head _

theorem stripDashes_head (l : List Char) :
    (stripDashes l).head? ≠ some '-' := by
  unfold stripDashes
  rw [List.head?_reverse]
  intro hlast
  obtain ⟨t, ht⟩ := List.dropWhile_suffix (l := (l.dropWhile (· = '-')).reverse)
    (fun c => decide (c = '-'))
  have h1 : ((l.dropWhile (· = '-')).reverse).getLast? = some '-' := by
    rw [← ht, List.getLast?_append, hlast]
    rfl
  rw [List.getLast?_reverse] at h1
  exact dropWhile_dash_head l h1

/-! ## Claim C9 -/

/-- C9 (confirmed): the derived `pk` equals the spec's description
(lowercase, replace non-alphanumerics by `-`, collapse hyphen runs, trim
hyphens — the code trims before collapsing, which commutes); it never
contains two adjacent hyphens nor a leading or trailing hyphen; it is a
pure function of the title (determinism), and the two derivation sites
(article route and startup loader) are the same computation, so identical
titles yield identical keys. -/
theorem claim_C9 (title : List Char) :
    normalized_pk_articles title = spec_normalize title ∧
    normalized_pk_articles title = normalized_pk_startup title ∧
    hasDD (normalized_pk_articles title) = false ∧
    (normalized_pk_articles title).head? ≠ some '-' ∧
    (normalized_pk_articles title).getLast? ≠ some '-' := by
  have heq : normalized_pk_articles title = stripDashes (specCollapse
      ((title.map Char.toLower).map fun c => if pyIsAlnum c then c else '-')) := by
    unfold normalized_pk_articles
    rw [collapseLoop_eq_specCollapse, specCollapse_stripDashes]
  refine ⟨heq, rfl, ?_, ?_, ?_⟩
  · unfold normalized_pk_articles
    exact hasDD_collapseLoop _
  · rw [heq]
    exact stripDashes_head _
  · rw [heq]
    exact stripDashes_getLast _
